import Mathlib

/-!
Shallow embedding of the hardware-characteristics codec from
`instance/instance.go` (package `instance`): `ParseHardware`, the
per-field setters, `parseUint64`, `parseSize`, `parseTags`, and
`HardwareCharacteristics.String`.  Strings are modelled as `List Char`
inside the codec; the top-level entry points take Lean `String`s.
Go's `uint64` is modelled as `Nat` with explicit `< 2 ^ 64` range checks
where the Go library performs them.  Go's `float64` parsing is modelled
by a partial function (`goParseFloatList`) that covers `ParseFloat`'s
plain decimal grammar and keeps the parsed value exactly; the theorem
about the size pipeline quantifies only over the domain (`sizeFaithful`)
on which this partial model provably agrees with `strconv.ParseFloat`'s
binary64 semantics — decimal strings whose exact value is itself a
binary64 float (there correct rounding is the identity), with the final
ceiling below `2 ^ 64` (there `uint64(math.Ceil(val))` is defined and
exact, and the power-of-two multiplier cannot overflow).
-/

deriving instance DecidableEq for Except

/-- The characters stripped by Go's `strings.TrimSpace`: exactly the code
points of `unicode.IsSpace` (the Unicode White_Space property): U+0009 to
U+000D, space, U+0085, U+00A0, U+1680, U+2000 to U+200A, U+2028, U+2029,
U+202F, U+205F and U+3000. -/
def isGoSpace (c : Char) : Bool :=
  decide ((0x09 ≤ c.toNat ∧ c.toNat ≤ 0x0d) ∨ c.toNat = 0x20 ∨ c.toNat = 0x85 ∨
    c.toNat = 0xa0 ∨ c.toNat = 0x1680 ∨ (0x2000 ≤ c.toNat ∧ c.toNat ≤ 0x200a) ∨
    c.toNat = 0x2028 ∨ c.toNat = 0x2029 ∨ c.toNat = 0x202f ∨ c.toNat = 0x205f ∨
    c.toNat = 0x3000)

/-- Drop leading Go-whitespace characters. -/
def dropWS : List Char → List Char
  | [] => []
  | c :: rest => if isGoSpace c then dropWS rest else c :: rest

/-- Model of `strings.TrimSpace`: drop whitespace from both ends. -/
def goTrimList (cs : List Char) : List Char :=
  (dropWS (dropWS cs).reverse).reverse

/-- Model of `strings.Split` with a single-character separator: split at
every occurrence of `sep`, keeping empty pieces (so the result is never
empty). -/
def splitOnChar (sep : Char) : List Char → List (List Char)
  | [] => [[]]
  | c :: rest =>
    if c = sep then [] :: splitOnChar sep rest
    else
      match splitOnChar sep rest with
      | [] => [[c]]
      | p :: ps => (c :: p) :: ps

/-- Model of `strings.Join` with a single-character separator. -/
def joinSep (sep : Char) : List (List Char) → List Char
  | [] => []
  | [x] => x
  | x :: xs => x ++ sep :: joinSep sep xs

/-- Split a raw token at the first `=` (model of `strings.Index(raw, "=")`
followed by the two slices); `none` when there is no `=`. -/
def breakEq : List Char → Option (List Char × List Char)
  | [] => none
  | c :: rest =>
    if c = '=' then some ([], rest)
    else
      match breakEq rest with
      | none => none
      | some (n, s) => some (c :: n, s)

/-- Numeric value of a string of decimal digits (most significant first). -/
def digitsVal (cs : List Char) : Nat :=
  cs.foldl (fun a c => 10 * a + (c.toNat - 48)) 0

/-- One decimal digit character. -/
def digitChar (d : Nat) : Char := Char.ofNat (48 + d)

/-- Decimal rendering of a natural number (model of Go's `%d` formatting),
driven by a fuel argument for structural recursion. -/
def natReprAux : Nat → Nat → List Char
  | 0, _ => []
  | fuel + 1, n =>
    if n < 10 then [digitChar n]
    else natReprAux fuel (n / 10) ++ [digitChar (n % 10)]

/-- Decimal rendering of a natural number, most significant digit first. -/
def natRepr (n : Nat) : List Char := natReprAux (n + 1) n

/-- Strip one optional leading sign; returns (isNegative, rest). -/
def stripSign : List Char → Bool × List Char
  | [] => (false, [])
  | c :: rest =>
    if c = '-' then (true, rest)
    else if c = '+' then (false, rest)
    else (false, c :: rest)

/-- Partial model of Go's `strconv.ParseFloat(str, 64)`: it implements the
plain decimal grammar `[sign] digits [. digits] [(e|E) [sign] digits]` and
keeps the parsed value exactly as a pair of an integer numerator and a
base-ten exponent (the value is `num / 10 ^ dexp`).  The remaining
`ParseFloat` behaviour is NOT modelled: correct rounding to the nearest
binary64 float, range errors at overflow, the case-insensitive
`inf`/`infinity`/`nan` forms, hex floats and digit-separating underscores.
Claim theorems therefore invoke the float pipeline on arbitrary strings
only under the `sizeFaithful` hypothesis — strings in this grammar whose
exact value is a binary64 float (`float64Exact`), where `ParseFloat`'s
rounding is the identity and the model coincides with Go — or at the
digit-only strings produced by the codec's own formatter. -/
def goParseFloatList (cs : List Char) : Option (Int × Nat) :=
  let s := stripSign cs
  let neg := s.1
  let cs1 := s.2
  let intPart := cs1.takeWhile Char.isDigit
  let cs2 := cs1.dropWhile Char.isDigit
  let fr : List Char × List Char :=
    if cs2.head? = some '.' then
      (cs2.tail.takeWhile Char.isDigit, cs2.tail.dropWhile Char.isDigit)
    else ([], cs2)
  let fracPart := fr.1
  let cs3 := fr.2
  if intPart = [] ∧ fracPart = [] then none
  else
    let m : Nat := digitsVal (intPart ++ fracPart)
    let num : Int := if neg then -(m : Int) else (m : Int)
    if cs3 = [] then some (num, fracPart.length)
    else if cs3.head? = some 'e' ∨ cs3.head? = some 'E' then
      let es := stripSign cs3.tail
      let eDigits := es.2.takeWhile Char.isDigit
      let rest2 := es.2.dropWhile Char.isDigit
      if eDigits = [] ∨ rest2 ≠ [] then none
      else if es.1 then some (num, fracPart.length + digitsVal eDigits)
      else some (num * (10 ^ digitsVal eDigits : Nat), fracPart.length)
    else none

/-- The exact rational value denoted by a parsed numerator/exponent
pair. -/
def ndVal (nd : Int × Nat) : ℚ := (nd.1 : ℚ) / (10 : ℚ) ^ nd.2

/-- Ceiling of the exact quotient `a / b` (for `b > 0`), as an integer. -/
def ceilDiv (a : Int) (b : Nat) : Int := -((-a) / (b : Int))

/-- The `mbSuffixes` table of `instance.go`: binary multipliers over a
base unit of megabytes, keyed by the (case-sensitive) final character
(the table's `float64` values are these exact integers). -/
def mbSuffix (c : Char) : Option Nat :=
  if c = 'M' then some 1
  else if c = 'G' then some 1024
  else if c = 'T' then some (1024 * 1024)
  else if c = 'P' then some (1024 * 1024 * 1024)
  else none

/-- `HardwareCharacteristics` from `instance.go`: every field is a nil-able
pointer in Go, modelled as `Option`; `uint64` fields become `Nat`. -/
structure HardwareCharacteristics where
  arch : Option (List Char) := none
  mem : Option Nat := none
  rootDisk : Option Nat := none
  cpuCores : Option Nat := none
  cpuPower : Option Nat := none
  tags : Option (List (List Char)) := none
  availabilityZone : Option (List Char) := none
deriving DecidableEq

/-- The all-unset record (`HardwareCharacteristics{}` in Go). -/
def emptyHC : HardwareCharacteristics := {}

/-- Errors produced by the per-field setters, one constructor per distinct
`fmt.Errorf` message in `instance.go`. `invalidUint` is the spec's
`InvalidNumber` for plain-integer fields ("must be a non-negative
integer"), `invalidSize` the spec's `InvalidNumber` for unit-suffix fields
("must be a non-negative float with optional M/G/T/P suffix"),
`archNotRecognized` the spec's `UnsupportedArchitecture`. -/
inductive SetErr where
  | alreadySet : SetErr
  | archNotRecognized : List Char → SetErr
  | invalidUint : SetErr
  | invalidSize : SetErr
deriving DecidableEq

/-- Errors produced by a parse call. `malformed` is the spec's
`MalformedToken` ("malformed characteristic"), `unknown` the spec's
`UnknownCharacteristic`, and `bad name e` the wrapping
`bad %q characteristic: %v` of a setter error. -/
inductive ParseErr where
  | malformed : List Char → ParseErr
  | unknown : List Char → ParseErr
  | bad : List Char → SetErr → ParseErr
deriving DecidableEq

/-- Modelled from the spec: the fixed allow-list of supported architecture
names consulted by `arch.IsSupportedArch` (the `juju/utils/arch` package
is outside the given sources). The spec only requires that `amd64` is a
member and `unknownarch` is not; no claim below depends on the exact
membership beyond the list being fixed. -/
def supportedArches : List (List Char) :=
  ["amd64".toList, "i386".toList, "arm".toList, "arm64".toList,
   "ppc64el".toList, "s390x".toList]

/-- Model of `parseUint64`: empty means zero, otherwise
`strconv.ParseUint(str, 10, 64)` (digits only, value below `2 ^ 64`). -/
def parseUint64 (str : List Char) : Except SetErr Nat :=
  if str = [] then .ok 0
  else if str.all Char.isDigit ∧ digitsVal str < 2 ^ 64 then .ok (digitsVal str)
  else .error .invalidUint

/-- Model of `parseSize`: empty means zero; otherwise strip an optional
trailing `M`/`G`/`T`/`P` multiplier, parse the rest as a float (via the
partial `goParseFloatList` model, so with exact instead of binary64
arithmetic), reject negatives, and take the ceiling of value times
multiplier.  Go computes `val *= mult` in `float64` (exact for these
power-of-two multipliers unless the product overflows) and then converts
through `uint64(math.Ceil(val))`, which is implementation-defined once the
value is not in `[0, 2 ^ 64)`; the model keeps the ceiling as an unbounded
`Nat`, and the size-pipeline claim is stated only on the `sizeFaithful`
domain, where none of these gaps is reachable. -/
def parseSize (str : List Char) : Except SetErr Nat :=
  if str = [] then .ok 0
  else
    let bm : List Char × Nat :=
      match str.getLast? with
      | some c =>
        match mbSuffix c with
        | some m => (str.dropLast, m)
        | none => (str, 1)
      | none => (str, 1)
    match goParseFloatList bm.1 with
    | some nd =>
      if nd.1 < 0 then .error .invalidSize
      else .ok (Int.toNat (ceilDiv (nd.1 * bm.2) (10 ^ nd.2)))
    | none => .error .invalidSize

/-- Model of `parseTags`: empty means the explicitly-empty sequence,
otherwise split on commas (keeping order, duplicates and empty pieces). -/
def parseTags (s : List Char) : List (List Char) :=
  if s = [] then [] else splitOnChar ',' s

/-- `setArch`: reject a second assignment, then reject a non-empty value
outside the allow-list. -/
def setArch (hc : HardwareCharacteristics) (str : List Char) :
    Except SetErr HardwareCharacteristics :=
  if hc.arch.isSome then .error .alreadySet
  else if str ≠ [] ∧ str ∉ supportedArches then .error (.archNotRecognized str)
  else .ok { hc with arch := some str }

/-- `setCpuCores`. -/
def setCpuCores (hc : HardwareCharacteristics) (str : List Char) :
    Except SetErr HardwareCharacteristics :=
  if hc.cpuCores.isSome then .error .alreadySet
  else
    match parseUint64 str with
    | .ok v => .ok { hc with cpuCores := some v }
    | .error e => .error e

/-- `setCpuPower`. -/
def setCpuPower (hc : HardwareCharacteristics) (str : List Char) :
    Except SetErr HardwareCharacteristics :=
  if hc.cpuPower.isSome then .error .alreadySet
  else
    match parseUint64 str with
    | .ok v => .ok { hc with cpuPower := some v }
    | .error e => .error e

/-- `setMem`. -/
def setMem (hc : HardwareCharacteristics) (str : List Char) :
    Except SetErr HardwareCharacteristics :=
  if hc.mem.isSome then .error .alreadySet
  else
    match parseSize str with
    | .ok v => .ok { hc with mem := some v }
    | .error e => .error e

/-- `setRootDisk`. -/
def setRootDisk (hc : HardwareCharacteristics) (str : List Char) :
    Except SetErr HardwareCharacteristics :=
  if hc.rootDisk.isSome then .error .alreadySet
  else
    match parseSize str with
    | .ok v => .ok { hc with rootDisk := some v }
    | .error e => .error e

/-- `setTags` (never fails after the duplicate check). -/
def setTags (hc : HardwareCharacteristics) (str : List Char) :
    Except SetErr HardwareCharacteristics :=
  if hc.tags.isSome then .error .alreadySet
  else .ok { hc with tags := some (parseTags str) }

/-- `setAvailabilityZone`: a non-empty value is recorded; an empty value
leaves the field untouched (still unassigned). -/
def setAvailabilityZone (hc : HardwareCharacteristics) (str : List Char) :
    Except SetErr HardwareCharacteristics :=
  if hc.availabilityZone.isSome then .error .alreadySet
  else if str ≠ [] then .ok { hc with availabilityZone := some str }
  else .ok hc

/-- `setRaw`: split a token at the first `=` (rejecting a missing `=` or an
empty key), dispatch on the key, and wrap any setter error with the key. -/
def setRaw (hc : HardwareCharacteristics) (raw : List Char) :
    Except ParseErr HardwareCharacteristics :=
  match breakEq raw with
  | none => .error (.malformed raw)
  | some (name, str) =>
    if name = [] then .error (.malformed raw)
    else
      let res : Except SetErr HardwareCharacteristics :=
        if name = "arch".toList then setArch hc str
        else if name = "cores".toList then setCpuCores hc str
        else if name = "cpu-power".toList then setCpuPower hc str
        else if name = "mem".toList then setMem hc str
        else if name = "root-disk".toList then setRootDisk hc str
        else if name = "tags".toList then setTags hc str
        else if name = "availability-zone".toList then setAvailabilityZone hc str
        else .error .alreadySet
      if name = "arch".toList ∨ name = "cores".toList ∨ name = "cpu-power".toList ∨
          name = "mem".toList ∨ name = "root-disk".toList ∨ name = "tags".toList ∨
          name = "availability-zone".toList then
        match res with
        | .ok hc' => .ok hc'
        | .error e => .error (.bad name e)
      else .error (.unknown name)

/-- The inner loop of `ParseHardware`: process tokens in order, skipping
empty ones, stopping at the first failure. -/
def parseTokens (hc : HardwareCharacteristics) :
    List (List Char) → Except ParseErr HardwareCharacteristics
  | [] => .ok hc
  | t :: ts =>
    if t = [] then parseTokens hc ts
    else
      match setRaw hc t with
      | .error e => .error e
      | .ok hc' => parseTokens hc' ts

/-- One argument string becomes tokens: `strings.Split(strings.TrimSpace(arg), " ")`. -/
def tokenize (arg : String) : List (List Char) :=
  splitOnChar ' ' (goTrimList arg.toList)

/-- The outer loop of `ParseHardware` over the argument strings. -/
def parseArgs (hc : HardwareCharacteristics) :
    List String → Except ParseErr HardwareCharacteristics
  | [] => .ok hc
  | arg :: rest =>
    match parseTokens hc (tokenize arg) with
    | .error e => .error e
    | .ok hc' => parseArgs hc' rest

/-- `ParseHardware`: accumulate over every token of every argument; on any
failure return the zero record together with the error, exactly as the Go
function returns `HardwareCharacteristics{}, err`. -/
def ParseHardware (args : List String) :
    HardwareCharacteristics × Option ParseErr :=
  match parseArgs emptyHC args with
  | .ok hc => (hc, none)
  | .error e => (emptyHC, some e)

/-- The token list built by `HardwareCharacteristics.String`: one
`key=value` token per rendered field, in the fixed source order, with
`mem`/`root-disk` rendered with a trailing `M`, tags only when non-empty,
and the availability zone only when non-empty. -/
def hcStrs (hc : HardwareCharacteristics) : List (List Char) :=
  (match hc.arch with
   | some a => ["arch=".toList ++ a]
   | none => []) ++
  (match hc.cpuCores with
   | some n => ["cores=".toList ++ natRepr n]
   | none => []) ++
  (match hc.cpuPower with
   | some n => ["cpu-power=".toList ++ natRepr n]
   | none => []) ++
  (match hc.mem with
   | some n => ["mem=".toList ++ natRepr n ++ ['M']]
   | none => []) ++
  (match hc.rootDisk with
   | some n => ["root-disk=".toList ++ natRepr n ++ ['M']]
   | none => []) ++
  (match hc.tags with
   | some l => if l ≠ [] then ["tags=".toList ++ joinSep ',' l] else []
   | none => []) ++
  (match hc.availabilityZone with
   | some z => if z ≠ [] then ["availability-zone=".toList ++ z] else []
   | none => [])

/-- `HardwareCharacteristics.String` as a character list: the rendered
tokens joined by single spaces. -/
def hcStringL (hc : HardwareCharacteristics) : List Char :=
  joinSep ' ' (hcStrs hc)

/-- `HardwareCharacteristics.String`. -/
def hcString (hc : HardwareCharacteristics) : String :=
  (hcStringL hc).asString

/-- Follows the spec's words (§4.1, numeric fields with unit suffix): the
value string may end with one of `M`, `G`, `T`, `P`; the multiplier is
M=1, G=1024, T=1024*1024, P=1024*1024*1024; the remaining prefix is
parsed as a non-negative floating-point number and the result is the
ceiling of number times multiplier; a negative number or an invalid
prefix is an `InvalidNumber` failure.  (The float grammar is the shared
`goParseFloatList`.) -/
def specSize (str : List Char) : Except SetErr Nat :=
  let pm : List Char × ℚ :=
    if str.getLast? = some 'M' then (str.dropLast, 1)
    else if str.getLast? = some 'G' then (str.dropLast, 1024)
    else if str.getLast? = some 'T' then (str.dropLast, 1024 * 1024)
    else if str.getLast? = some 'P' then (str.dropLast, 1024 * 1024 * 1024)
    else (str, 1)
  match goParseFloatList pm.1 with
  | some nd =>
    if ndVal nd < 0 then .error .invalidSize
    else .ok (Int.toNat ⌈ndVal nd * pm.2⌉)
  | none => .error .invalidSize

/-- Number of times `p` divides `n` (for `p ≥ 2`, `n ≥ 1`; the first
argument after `p` is fuel, `n` itself suffices). -/
def factorCount (p : Nat) : Nat → Nat → Nat
  | 0, _ => 0
  | fuel + 1, n =>
    if 2 ≤ p ∧ n ≠ 0 ∧ n % p = 0 then factorCount p fuel (n / p) + 1 else 0

/-- Whether the exact rational `num / 10 ^ dexp` is a finite binary64
floating-point number, i.e. lies in
`{M * 2 ^ E : |M| < 2 ^ 53, -1074 ≤ E, |M * 2 ^ E| < 2 ^ 1024}`.
Writing the non-zero value as `m * 2 ^ e` with `m` odd (so the ten-power
denominator must reduce away its factor `5 ^ dexp`, and `e = c2 - dexp`
after cancelling the factors of two), this is `m < 2 ^ 53`, `e ≥ -1074`
and `m * 2 ^ e < 2 ^ 1024` (the last is automatic when `e < 0`, since
then `m * 2 ^ e < m < 2 ^ 53`).  On exactly these inputs `ParseFloat`'s
round-to-nearest is the identity, so the exact model agrees with Go. -/
def float64Exact (num : Int) (dexp : Nat) : Bool :=
  if num = 0 then true
  else
    let n := num.natAbs
    let c5 := factorCount 5 n n
    if dexp ≤ c5 then
      let n2 := n / 5 ^ dexp
      let c2 := factorCount 2 n2 n2
      let m := n2 / 2 ^ c2
      decide (m < 2 ^ 53) && decide (dexp ≤ c2 + 1074) &&
        (if dexp ≤ c2 then decide (m * 2 ^ (c2 - dexp) < 2 ^ 1024) else true)
    else false

/-- The domain on which the partial float model provably coincides with
`parseSize`'s real pipeline: after stripping the optional suffix, the
value string lies in the plain decimal grammar; its exact value is a
binary64 float, so `strconv.ParseFloat` returns it exactly and the
multiplication by the power-of-two multiplier is exact and cannot
overflow below `2 ^ 64`; and the ceiling of value times multiplier is
below `2 ^ 64`, so `uint64(math.Ceil(val))` is defined and exact. -/
def sizeFaithful (str : List Char) : Bool :=
  let bm : List Char × Nat :=
    match str.getLast? with
    | some c =>
      match mbSuffix c with
      | some m => (str.dropLast, m)
      | none => (str, 1)
    | none => (str, 1)
  match goParseFloatList bm.1 with
  | some nd =>
    float64Exact nd.1 nd.2 && decide (ceilDiv (nd.1 * bm.2) (10 ^ nd.2) < 2 ^ 64)
  | none => false

theorem splitOnChar_ne_nil (sep : Char) (cs : List Char) : splitOnChar sep cs ≠ [] := by
  induction cs with
  | nil => simp [splitOnChar]
  | cons c rest ih =>
    simp only [splitOnChar]
    split
    · simp
    · match h : splitOnChar sep rest with
      | [] => simp
      | p :: ps => simp

theorem mem_splitOnChar_not_sep {sep : Char} {cs p : List Char}
    (hp : p ∈ splitOnChar sep cs) : sep ∉ p := by
  induction cs generalizing p with
  | nil =>
    simp only [splitOnChar, List.mem_singleton] at hp
    subst hp; simp
  | cons c rest ih =>
    simp only [splitOnChar] at hp
    by_cases hc : c = sep
    · rw [if_pos hc] at hp
      rcases List.mem_cons.mp hp with h | h
      · subst h; simp
      · exact ih h
    · rw [if_neg hc] at hp
      match hs : splitOnChar sep rest with
      | [] => exact absurd hs (splitOnChar_ne_nil sep rest)
      | q :: qs =>
        rw [hs] at hp
        rcases List.mem_cons.mp hp with h | h
        · subst h
          intro hmem
          rcases List.mem_cons.mp hmem with h' | h'
          · exact hc h'.symm
          · exact ih (hs ▸ List.mem_cons_self q qs) h'
        · exact ih (hs ▸ List.mem_cons_of_mem q h)

theorem mem_splitOnChar_sub {sep : Char} {cs p : List Char}
    (hp : p ∈ splitOnChar sep cs) : ∀ c ∈ p, c ∈ cs := by
  induction cs generalizing p with
  | nil =>
    simp only [splitOnChar, List.mem_singleton] at hp
    subst hp; simp
  | cons c rest ih =>
    simp only [splitOnChar] at hp
    by_cases hc : c = sep
    · rw [if_pos hc] at hp
      rcases List.mem_cons.mp hp with h | h
      · subst h; simp
      · exact fun x hx => List.mem_cons_of_mem c (ih h x hx)
    · rw [if_neg hc] at hp
      match hs : splitOnChar sep rest with
      | [] => exact absurd hs (splitOnChar_ne_nil sep rest)
      | q :: qs =>
        rw [hs] at hp
        rcases List.mem_cons.mp hp with h | h
        · subst h
          intro x hx
          rcases List.mem_cons.mp hx with h' | h'
          · exact h' ▸ List.mem_cons_self c rest
          · exact List.mem_cons_of_mem c
              (ih (hs ▸ List.mem_cons_self q qs) x h')
        · exact fun x hx => List.mem_cons_of_mem c
            (ih (hs ▸ List.mem_cons_of_mem q h) x hx)

theorem splitOnChar_eq_single_nil {sep : Char} {cs : List Char}
    (h : splitOnChar sep cs = [[]]) : cs = [] := by
  cases cs with
  | nil => rfl
  | cons c rest =>
    exfalso
    simp only [splitOnChar] at h
    by_cases hc : c = sep
    · rw [if_pos hc] at h
      have := List.cons.injEq ([] : List Char) (splitOnChar sep rest) [] []
      rw [List.cons.injEq] at h
      exact splitOnChar_ne_nil sep rest h.2
    · rw [if_neg hc] at h
      match hs : splitOnChar sep rest with
      | [] => exact splitOnChar_ne_nil sep rest hs
      | q :: qs =>
        rw [hs] at h
        rw [List.cons.injEq] at h
        simp at h

theorem joinSep_splitOnChar (sep : Char) (cs : List Char) :
    joinSep sep (splitOnChar sep cs) = cs := by
  induction cs with
  | nil => simp [splitOnChar, joinSep]
  | cons c rest ih =>
    simp only [splitOnChar]
    by_cases hc : c = sep
    · rw [if_pos hc]
      subst hc
      match hs : splitOnChar c rest with
      | [] => exact absurd hs (splitOnChar_ne_nil c rest)
      | q :: qs =>
        rw [hs] at ih
        simp [joinSep, ih]
    · rw [if_neg hc]
      match hs : splitOnChar sep rest with
      | [] => exact absurd hs (splitOnChar_ne_nil sep rest)
      | q :: qs =>
        rw [hs] at ih
        cases qs with
        | nil => simp_all [joinSep]
        | cons q' qs' => simp_all [joinSep]

theorem splitOnChar_of_not_mem {sep : Char} {p : List Char} (h : sep ∉ p) :
    splitOnChar sep p = [p] := by
  induction p with
  | nil => simp [splitOnChar]
  | cons c rest ih =>
    simp only [splitOnChar]
    rw [if_neg (by intro hc; exact h (hc ▸ List.mem_cons_self c rest))]
    rw [ih (fun hm => h (List.mem_cons_of_mem c hm))]

theorem splitOnChar_append_cons {sep : Char} {p rest : List Char} (h : sep ∉ p) :
    splitOnChar sep (p ++ sep :: rest) = p :: splitOnChar sep rest := by
  induction p with
  | nil => simp [splitOnChar]
  | cons c q ih =>
    simp only [List.cons_append, splitOnChar, List.append_eq]
    rw [if_neg (by intro hc; exact h (hc ▸ List.mem_cons_self c q))]
    rw [ih (fun hm => h (List.mem_cons_of_mem c hm))]

theorem splitOnChar_joinSep {sep : Char} {ps : List (List Char)}
    (h : ∀ p ∈ ps, sep ∉ p) (hne : ps ≠ []) :
    splitOnChar sep (joinSep sep ps) = ps := by
  induction ps with
  | nil => exact absurd rfl hne
  | cons p ps ih =>
    cases ps with
    | nil =>
      simp only [joinSep]
      exact splitOnChar_of_not_mem (h p (List.mem_cons_self p []))
    | cons q qs =>
      have hjoin : joinSep sep (p :: q :: qs) = p ++ sep :: joinSep sep (q :: qs) := rfl
      rw [hjoin, splitOnChar_append_cons (h p (List.mem_cons_self p (q :: qs)))]
      rw [ih (fun x hx => h x (List.mem_cons_of_mem p hx)) (by simp)]

theorem dropWS_of_head (c : Char) (rest : List Char) (h : isGoSpace c = false) :
    dropWS (c :: rest) = c :: rest := by
  simp [dropWS, h]

theorem dropWS_nil : dropWS [] = [] := rfl

/-- A single well-formed token: non-empty, contains no space (the split
separator), and neither starts nor ends with a `TrimSpace` character. -/
def GoodToken (t : List Char) : Prop :=
  t ≠ [] ∧ ' ' ∉ t ∧ (∀ c, t.head? = some c → isGoSpace c = false) ∧
    (∀ c, t.getLast? = some c → isGoSpace c = false)

theorem goTrimList_of_ends {cs : List Char}
    (hh : ∀ c, cs.head? = some c → isGoSpace c = false)
    (hl : ∀ c, cs.getLast? = some c → isGoSpace c = false) :
    goTrimList cs = cs := by
  unfold goTrimList
  cases hcs : cs with
  | nil => rfl
  | cons c rest =>
    rw [dropWS_of_head c rest (hh c (by rw [hcs]; rfl))]
    have hrev : (c :: rest).reverse ≠ [] := by simp
    match hr : (c :: rest).reverse with
    | [] => exact absurd hr hrev
    | d :: ds =>
      have hd : (c :: rest).getLast? = some d := by
        rw [List.getLast?_eq_head?_reverse, hr]; rfl
      rw [dropWS_of_head d ds (hl d (hcs ▸ hd))]
      rw [← hr, List.reverse_reverse]

theorem goodToken_trim {t : List Char} (h : GoodToken t) : goTrimList t = t :=
  goTrimList_of_ends h.2.2.1 h.2.2.2

theorem breakEq_not_mem {cs : List Char} (h : '=' ∉ cs) : breakEq cs = none := by
  induction cs with
  | nil => rfl
  | cons c rest ih =>
    simp only [breakEq]
    rw [if_neg (by intro hc; exact h (hc ▸ List.mem_cons_self c rest))]
    rw [ih (fun hm => h (List.mem_cons_of_mem c hm))]

theorem breakEq_append {k v : List Char} (h : '=' ∉ k) :
    breakEq (k ++ '=' :: v) = some (k, v) := by
  induction k with
  | nil => simp [breakEq]
  | cons c q ih =>
    simp only [List.cons_append, breakEq, List.append_eq]
    rw [if_neg (by intro hc; exact h (hc ▸ List.mem_cons_self c q))]
    rw [ih (fun hm => h (List.mem_cons_of_mem c hm))]

theorem breakEq_sub {cs n s : List Char} (h : breakEq cs = some (n, s)) :
    (∀ c ∈ n, c ∈ cs) ∧ ∀ c ∈ s, c ∈ cs := by
  induction cs generalizing n s with
  | nil => simp [breakEq] at h
  | cons c rest ih =>
    simp only [breakEq] at h
    by_cases hc : c = '='
    · rw [if_pos hc] at h
      simp only [Option.some.injEq, Prod.mk.injEq] at h
      obtain ⟨hn, hs⟩ := h
      subst hn; subst hs
      exact ⟨by simp, fun x hx => List.mem_cons_of_mem c hx⟩
    · rw [if_neg hc] at h
      match hb : breakEq rest with
      | none => rw [hb] at h; exact absurd h (by simp)
      | some (n', s') =>
        rw [hb] at h
        simp only [Option.some.injEq, Prod.mk.injEq] at h
        obtain ⟨hn, hs⟩ := h
        subst hn; subst hs
        obtain ⟨ihn, ihs⟩ := ih hb
        constructor
        · intro x hx
          rcases List.mem_cons.mp hx with h' | h'
          · exact h' ▸ List.mem_cons_self c rest
          · exact List.mem_cons_of_mem c (ihn x h')
        · exact fun x hx => List.mem_cons_of_mem c (ihs x hx)

theorem takeWhile_of_all {p : Char → Bool} {l : List Char}
    (h : ∀ c ∈ l, p c = true) : l.takeWhile p = l := by
  induction l with
  | nil => rfl
  | cons c rest ih =>
    rw [List.takeWhile_cons, if_pos (h c (List.mem_cons_self c rest))]
    rw [ih (fun x hx => h x (List.mem_cons_of_mem c hx))]

theorem dropWhile_of_all {p : Char → Bool} {l : List Char}
    (h : ∀ c ∈ l, p c = true) : l.dropWhile p = [] := by
  induction l with
  | nil => rfl
  | cons c rest ih =>
    rw [List.dropWhile_cons, if_pos (h c (List.mem_cons_self c rest))]
    exact ih (fun x hx => h x (List.mem_cons_of_mem c hx))

theorem ne_char_of_toNat {c : Char} (h48 : 48 ≤ c.toNat) (h57 : c.toNat ≤ 57)
    (d : Char) (hd : d.toNat < 48 ∨ 57 < d.toNat) : c ≠ d := by
  intro he
  subst he
  omega

theorem isDigit_char_facts {c : Char} (h : c.isDigit = true) :
    isGoSpace c = false ∧ c ≠ '=' ∧ c ≠ ',' ∧ c ≠ '-' ∧ c ≠ '+' ∧ c ≠ '.' ∧
      c ≠ ' ' ∧ mbSuffix c = none ∧ c ≠ 'e' ∧ c ≠ 'E' := by
  have hval : 48 ≤ c.toNat ∧ c.toNat ≤ 57 := by
    simp only [Char.isDigit, decide_eq_true_eq, Bool.and_eq_true] at h
    exact ⟨h.1, h.2⟩
  have hne : ∀ d : Char, d.toNat < 48 ∨ 57 < d.toNat → c ≠ d :=
    fun d hd => ne_char_of_toNat hval.1 hval.2 d hd
  refine ⟨?_, ?_, ?_, ?_, ?_, ?_, ?_, ?_, ?_, ?_⟩
  · have h48 := hval.1
    have h57 := hval.2
    simp only [isGoSpace, decide_eq_false_iff_not]
    omega
  · exact hne '=' (by decide)
  · exact hne ',' (by decide)
  · exact hne '-' (by decide)
  · exact hne '+' (by decide)
  · exact hne '.' (by decide)
  · exact hne ' ' (by decide)
  · have hM : c ≠ 'M' := hne 'M' (by decide)
    have hG : c ≠ 'G' := hne 'G' (by decide)
    have hT : c ≠ 'T' := hne 'T' (by decide)
    have hP : c ≠ 'P' := hne 'P' (by decide)
    simp [mbSuffix, hM, hG, hT, hP]
  · exact hne 'e' (by decide)
  · exact hne 'E' (by decide)

theorem digitsVal_append_single (xs : List Char) (c : Char) :
    digitsVal (xs ++ [c]) = 10 * digitsVal xs + (c.toNat - 48) := by
  simp [digitsVal, List.foldl_append]

theorem digitChar_isDigit {d : Nat} (hd : d < 10) : (digitChar d).isDigit = true := by
  interval_cases d <;> decide

theorem digitChar_toNat {d : Nat} (hd : d < 10) : (digitChar d).toNat - 48 = d := by
  interval_cases d <;> decide

theorem natReprAux_spec :
    ∀ fuel n, n < fuel →
      natReprAux fuel n ≠ [] ∧ (∀ c ∈ natReprAux fuel n, c.isDigit = true) ∧
        digitsVal (natReprAux fuel n) = n := by
  intro fuel
  induction fuel with
  | zero => intro n hn; omega
  | succ f ih =>
    intro n hn
    by_cases h10 : n < 10
    · simp only [natReprAux, if_pos h10]
      refine ⟨by simp, ?_, ?_⟩
      · intro c hc
        rw [List.mem_singleton] at hc
        exact hc ▸ digitChar_isDigit h10
      · have : digitsVal [digitChar n] = (digitChar n).toNat - 48 := by
          simp [digitsVal]
        rw [this, digitChar_toNat h10]
    · simp only [natReprAux, if_neg h10]
      have hdiv : n / 10 < f := by omega
      obtain ⟨hne, hdig, hval⟩ := ih (n / 10) hdiv
      refine ⟨by simp, ?_, ?_⟩
      · intro c hc
        rcases List.mem_append.mp hc with h | h
        · exact hdig c h
        · rw [List.mem_singleton] at h
          exact h ▸ digitChar_isDigit (Nat.mod_lt n (by omega))
      · rw [digitsVal_append_single, hval, digitChar_toNat (Nat.mod_lt n (by omega))]
        omega

theorem natRepr_spec (n : Nat) :
    natRepr n ≠ [] ∧ (∀ c ∈ natRepr n, c.isDigit = true) ∧ digitsVal (natRepr n) = n :=
  natReprAux_spec (n + 1) n (Nat.lt_succ_self n)

theorem stripSign_of_head {c : Char} {rest : List Char} (hm : c ≠ '-') (hp : c ≠ '+') :
    stripSign (c :: rest) = (false, c :: rest) := by
  simp [stripSign, hm, hp]

theorem goParseFloat_digits {l : List Char} (hne : l ≠ [])
    (hd : ∀ c ∈ l, c.isDigit = true) :
    goParseFloatList l = some ((digitsVal l : Int), 0) := by
  match l, hne with
  | c :: rest, _ =>
    have hc := hd c (List.mem_cons_self c rest)
    obtain ⟨_, _, _, hm, hp, _, _, _, _, _⟩ := isDigit_char_facts hc
    unfold goParseFloatList
    rw [stripSign_of_head hm hp]
    simp only
    rw [takeWhile_of_all hd, dropWhile_of_all hd]
    simp [List.append_nil, digitsVal]

theorem parseUint64_natRepr {n : Nat} (hn : n < 2 ^ 64) :
    parseUint64 (natRepr n) = .ok n := by
  obtain ⟨hne, hdig, hval⟩ := natRepr_spec n
  unfold parseUint64
  rw [if_neg hne, if_pos ⟨List.all_eq_true.mpr hdig, by rw [hval]; exact hn⟩, hval]

theorem ceilDivInt_one (a : Int) : ceilDiv a 1 = a := by
  unfold ceilDiv
  omega

theorem parseSize_natReprM (n : Nat) : parseSize (natRepr n ++ ['M']) = .ok n := by
  obtain ⟨hne, hdig, hval⟩ := natRepr_spec n
  unfold parseSize
  rw [if_neg (by simp)]
  simp only [List.getLast?_concat, List.dropLast_concat]
  have hsuf : mbSuffix 'M' = some 1 := by decide
  rw [hsuf]
  simp only
  rw [goParseFloat_digits hne hdig]
  simp only
  rw [if_neg (by rw [hval]; omega)]
  rw [hval]
  have h10 : (10 : Nat) ^ 0 = 1 := by norm_num
  rw [h10, ceilDivInt_one]
  simp

/-- The recognized keys of the `setRaw` dispatch. -/
def recognizedKeys : List (List Char) :=
  ["arch".toList, "cores".toList, "cpu-power".toList, "mem".toList,
   "root-disk".toList, "tags".toList, "availability-zone".toList]

theorem setRaw_no_eq (hc : HardwareCharacteristics) {raw : List Char}
    (h : '=' ∉ raw) : setRaw hc raw = .error (.malformed raw) := by
  unfold setRaw
  rw [breakEq_not_mem h]

theorem setRaw_empty_key (hc : HardwareCharacteristics) (rest : List Char) :
    setRaw hc ('=' :: rest) = .error (.malformed ('=' :: rest)) := by
  unfold setRaw
  have hb : breakEq ('=' :: rest) = some ([], rest) := by simp [breakEq]
  rw [hb]
  simp

theorem setRaw_unknown (hc : HardwareCharacteristics) {k v : List Char}
    (hk : '=' ∉ k) (hne : k ≠ []) (hkeys : k ∉ recognizedKeys) :
    setRaw hc (k ++ '=' :: v) = .error (.unknown k) := by
  unfold setRaw
  rw [breakEq_append hk]
  simp only [recognizedKeys, List.mem_cons, List.mem_singleton, not_or] at hkeys
  obtain ⟨h1, h2, h3, h4, h5, h6, h7⟩ := hkeys
  simp only
  rw [if_neg hne,
    if_neg (not_or.mpr ⟨h1, not_or.mpr ⟨h2, not_or.mpr ⟨h3, not_or.mpr ⟨h4,
      not_or.mpr ⟨h5, not_or.mpr ⟨h6, h7.1⟩⟩⟩⟩⟩⟩)]

theorem setRaw_arch (hc : HardwareCharacteristics) (v : List Char) :
    setRaw hc ("arch".toList ++ '=' :: v) =
      match setArch hc v with
      | .ok h => .ok h
      | .error e => .error (.bad "arch".toList e) := by
  unfold setRaw
  rw [breakEq_append (by decide)]
  simp only
  rw [if_neg (by decide), if_pos (by decide)]
  simp

theorem setRaw_cores (hc : HardwareCharacteristics) (v : List Char) :
    setRaw hc ("cores".toList ++ '=' :: v) =
      match setCpuCores hc v with
      | .ok h => .ok h
      | .error e => .error (.bad "cores".toList e) := by
  unfold setRaw
  rw [breakEq_append (by decide)]
  simp only
  rw [if_neg (by decide), if_pos (by decide), if_neg (by decide)]
  simp

theorem setRaw_cpuPower (hc : HardwareCharacteristics) (v : List Char) :
    setRaw hc ("cpu-power".toList ++ '=' :: v) =
      match setCpuPower hc v with
      | .ok h => .ok h
      | .error e => .error (.bad "cpu-power".toList e) := by
  unfold setRaw
  rw [breakEq_append (by decide)]
  simp only
  rw [if_neg (by decide), if_pos (by decide), if_neg (by decide), if_neg (by decide)]
  simp

theorem setRaw_mem (hc : HardwareCharacteristics) (v : List Char) :
    setRaw hc ("mem".toList ++ '=' :: v) =
      match setMem hc v with
      | .ok h => .ok h
      | .error e => .error (.bad "mem".toList e) := by
  unfold setRaw
  rw [breakEq_append (by decide)]
  simp only
  rw [if_neg (by decide), if_pos (by decide), if_neg (by decide), if_neg (by decide),
    if_neg (by decide)]
  simp

theorem setRaw_rootDisk (hc : HardwareCharacteristics) (v : List Char) :
    setRaw hc ("root-disk".toList ++ '=' :: v) =
      match setRootDisk hc v with
      | .ok h => .ok h
      | .error e => .error (.bad "root-disk".toList e) := by
  unfold setRaw
  rw [breakEq_append (by decide)]
  simp only
  rw [if_neg (by decide), if_pos (by decide), if_neg (by decide), if_neg (by decide),
    if_neg (by decide), if_neg (by decide)]
  simp

theorem setRaw_tags (hc : HardwareCharacteristics) (v : List Char) :
    setRaw hc ("tags".toList ++ '=' :: v) =
      match setTags hc v with
      | .ok h => .ok h
      | .error e => .error (.bad "tags".toList e) := by
  unfold setRaw
  rw [breakEq_append (by decide)]
  simp only
  rw [if_neg (by decide), if_pos (by decide), if_neg (by decide), if_neg (by decide),
    if_neg (by decide), if_neg (by decide), if_neg (by decide)]
  simp

theorem setRaw_az (hc : HardwareCharacteristics) (v : List Char) :
    setRaw hc ("availability-zone".toList ++ '=' :: v) =
      match setAvailabilityZone hc v with
      | .ok h => .ok h
      | .error e => .error (.bad "availability-zone".toList e) := by
  unfold setRaw
  rw [breakEq_append (by decide)]
  simp only
  rw [if_neg (by decide), if_pos (by decide), if_neg (by decide), if_neg (by decide),
    if_neg (by decide), if_neg (by decide), if_neg (by decide), if_neg (by decide)]
  simp

theorem parseTokens_append (hc : HardwareCharacteristics)
    (xs ys : List (List Char)) :
    parseTokens hc (xs ++ ys) =
      match parseTokens hc xs with
      | .ok h => parseTokens h ys
      | .error e => .error e := by
  induction xs generalizing hc with
  | nil => simp [parseTokens]
  | cons t ts ih =>
    simp only [List.cons_append, parseTokens, List.append_eq]
    by_cases ht : t = []
    · rw [if_pos ht, if_pos ht, ih]
    · rw [if_neg ht, if_neg ht]
      cases hsr : setRaw hc t with
      | error e => simp
      | ok h => simp only; exact ih h

/-- All tokens of a parse call, in processing order. -/
def allTokens : List String → List (List Char)
  | [] => []
  | a :: rest => tokenize a ++ allTokens rest

theorem parseArgs_eq_parseTokens (args : List String) (hc : HardwareCharacteristics) :
    parseArgs hc args = parseTokens hc (allTokens args) := by
  induction args generalizing hc with
  | nil => rfl
  | cons a rest ih =>
    simp only [parseArgs, allTokens, parseTokens_append]
    cases hp : parseTokens hc (tokenize a) with
    | error e => simp
    | ok h => simp only; exact ih h

theorem asString_toList (t : List Char) : (t.asString).toList = t := rfl

theorem tokenize_single {t : List Char} (h : GoodToken t) :
    tokenize t.asString = [t] := by
  unfold tokenize
  rw [asString_toList, goodToken_trim h, splitOnChar_of_not_mem h.2.1]

/-- Invariant of every record produced by a parse call: values never
contain the token separator, architecture values passed the allow-list
check, plain-integer values are in `uint64` range, tag lists are comma
splits of a non-empty value (hence never the singleton empty tag, and
never contain a comma), and the availability zone is non-empty. -/
def ParseInv (hc : HardwareCharacteristics) : Prop :=
  (∀ a, hc.arch = some a → ' ' ∉ a ∧ (a = [] ∨ a ∈ supportedArches)) ∧
  (∀ n, hc.cpuCores = some n → n < 2 ^ 64) ∧
  (∀ n, hc.cpuPower = some n → n < 2 ^ 64) ∧
  (∀ l, hc.tags = some l → (∀ t ∈ l, ' ' ∉ t ∧ ',' ∉ t) ∧ l ≠ [[]]) ∧
  (∀ z, hc.availabilityZone = some z → z ≠ [] ∧ ' ' ∉ z)

theorem parseInv_empty : ParseInv emptyHC := by
  refine ⟨?_, ?_, ?_, ?_, ?_⟩ <;> intro x hx <;> simp [emptyHC] at hx

theorem setArch_inv {hc hc' : HardwareCharacteristics} {v : List Char}
    (hinv : ParseInv hc) (hv : ' ' ∉ v) (h : setArch hc v = .ok hc') :
    ParseInv hc' := by
  unfold setArch at h
  by_cases h1 : hc.arch.isSome = true
  · rw [if_pos h1] at h; exact absurd h (by simp)
  · rw [if_neg h1] at h
    by_cases h2 : v ≠ [] ∧ v ∉ supportedArches
    · rw [if_pos h2] at h; exact absurd h (by simp)
    · rw [if_neg h2] at h
      simp only [Except.ok.injEq] at h
      subst h
      push_neg at h2
      obtain ⟨i1, i2, i3, i4, i5⟩ := hinv
      refine ⟨?_, i2, i3, i4, i5⟩
      intro a ha
      simp only [Option.some.injEq] at ha
      subst ha
      by_cases hv0 : v = []
      · exact ⟨hv, Or.inl hv0⟩
      · exact ⟨hv, Or.inr (h2 hv0)⟩

theorem setCpuCores_inv {hc hc' : HardwareCharacteristics} {v : List Char}
    (hinv : ParseInv hc) (h : setCpuCores hc v = .ok hc') : ParseInv hc' := by
  unfold setCpuCores at h
  by_cases h1 : hc.cpuCores.isSome = true
  · rw [if_pos h1] at h; exact absurd h (by simp)
  · rw [if_neg h1] at h
    match hp : parseUint64 v with
    | .error e => rw [hp] at h; exact absurd h (by simp)
    | .ok n =>
      rw [hp] at h
      simp only [Except.ok.injEq] at h
      subst h
      have hn : n < 2 ^ 64 := by
        unfold parseUint64 at hp
        by_cases hv0 : v = []
        · rw [if_pos hv0] at hp
          simp only [Except.ok.injEq] at hp
          omega
        · rw [if_neg hv0] at hp
          by_cases hd : v.all Char.isDigit ∧ digitsVal v < 2 ^ 64
          · rw [if_pos hd] at hp
            simp only [Except.ok.injEq] at hp
            omega
          · rw [if_neg hd] at hp; exact absurd hp (by simp)
      obtain ⟨i1, i2, i3, i4, i5⟩ := hinv
      exact ⟨i1, fun m hm => by simp only [Option.some.injEq] at hm; omega, i3, i4, i5⟩

theorem setCpuPower_inv {hc hc' : HardwareCharacteristics} {v : List Char}
    (hinv : ParseInv hc) (h : setCpuPower hc v = .ok hc') : ParseInv hc' := by
  unfold setCpuPower at h
  by_cases h1 : hc.cpuPower.isSome = true
  · rw [if_pos h1] at h; exact absurd h (by simp)
  · rw [if_neg h1] at h
    match hp : parseUint64 v with
    | .error e => rw [hp] at h; exact absurd h (by simp)
    | .ok n =>
      rw [hp] at h
      simp only [Except.ok.injEq] at h
      subst h
      have hn : n < 2 ^ 64 := by
        unfold parseUint64 at hp
        by_cases hv0 : v = []
        · rw [if_pos hv0] at hp
          simp only [Except.ok.injEq] at hp
          omega
        · rw [if_neg hv0] at hp
          by_cases hd : v.all Char.isDigit ∧ digitsVal v < 2 ^ 64
          · rw [if_pos hd] at hp
            simp only [Except.ok.injEq] at hp
            omega
          · rw [if_neg hd] at hp; exact absurd hp (by simp)
      obtain ⟨i1, i2, i3, i4, i5⟩ := hinv
      exact ⟨i1, i2, fun m hm => by simp only [Option.some.injEq] at hm; omega, i4, i5⟩

theorem setMem_inv {hc hc' : HardwareCharacteristics} {v : List Char}
    (hinv : ParseInv hc) (h : setMem hc v = .ok hc') : ParseInv hc' := by
  unfold setMem at h
  by_cases h1 : hc.mem.isSome = true
  · rw [if_pos h1] at h; exact absurd h (by simp)
  · rw [if_neg h1] at h
    match hp : parseSize v with
    | .error e => rw [hp] at h; exact absurd h (by simp)
    | .ok n =>
      rw [hp] at h
      simp only [Except.ok.injEq] at h
      subst h
      obtain ⟨i1, i2, i3, i4, i5⟩ := hinv
      exact ⟨i1, i2, i3, i4, i5⟩

theorem setRootDisk_inv {hc hc' : HardwareCharacteristics} {v : List Char}
    (hinv : ParseInv hc) (h : setRootDisk hc v = .ok hc') : ParseInv hc' := by
  unfold setRootDisk at h
  by_cases h1 : hc.rootDisk.isSome = true
  · rw [if_pos h1] at h; exact absurd h (by simp)
  · rw [if_neg h1] at h
    match hp : parseSize v with
    | .error e => rw [hp] at h; exact absurd h (by simp)
    | .ok n =>
      rw [hp] at h
      simp only [Except.ok.injEq] at h
      subst h
      obtain ⟨i1, i2, i3, i4, i5⟩ := hinv
      exact ⟨i1, i2, i3, i4, i5⟩

theorem setTags_inv {hc hc' : HardwareCharacteristics} {v : List Char}
    (hinv : ParseInv hc) (hv : ' ' ∉ v) (h : setTags hc v = .ok hc') :
    ParseInv hc' := by
  unfold setTags at h
  by_cases h1 : hc.tags.isSome = true
  · rw [if_pos h1] at h; exact absurd h (by simp)
  · rw [if_neg h1] at h
    simp only [Except.ok.injEq] at h
    subst h
    obtain ⟨i1, i2, i3, i4, i5⟩ := hinv
    refine ⟨i1, i2, i3, ?_, i5⟩
    intro l hl
    simp only [Option.some.injEq] at hl
    subst hl
    unfold parseTags
    by_cases hv0 : v = []
    · rw [if_pos hv0]
      exact ⟨by simp, by simp⟩
    · rw [if_neg hv0]
      constructor
      · intro t ht
        exact ⟨fun hs => hv (mem_splitOnChar_sub ht ' ' hs),
          mem_splitOnChar_not_sep ht⟩
      · intro hsingle
        have : v = [] := splitOnChar_eq_single_nil hsingle
        exact hv0 this

theorem setAvailabilityZone_inv {hc hc' : HardwareCharacteristics} {v : List Char}
    (hinv : ParseInv hc) (hv : ' ' ∉ v) (h : setAvailabilityZone hc v = .ok hc') :
    ParseInv hc' := by
  unfold setAvailabilityZone at h
  by_cases h1 : hc.availabilityZone.isSome = true
  · rw [if_pos h1] at h; exact absurd h (by simp)
  · rw [if_neg h1] at h
    by_cases h2 : v ≠ []
    · rw [if_pos h2] at h
      simp only [Except.ok.injEq] at h
      subst h
      obtain ⟨i1, i2, i3, i4, i5⟩ := hinv
      refine ⟨i1, i2, i3, i4, ?_⟩
      intro z hz
      simp only [Option.some.injEq] at hz
      subst hz
      exact ⟨h2, hv⟩
    · rw [if_neg h2] at h
      simp only [Except.ok.injEq] at h
      subst h
      exact hinv

theorem setRaw_inv {hc hc' : HardwareCharacteristics} {raw : List Char}
    (hinv : ParseInv hc) (hraw : ' ' ∉ raw) (h : setRaw hc raw = .ok hc') :
    ParseInv hc' := by
  unfold setRaw at h
  match hb : breakEq raw with
  | none => rw [hb] at h; exact absurd h (by simp)
  | some (name, str) =>
    rw [hb] at h
    simp only at h
    have hstr : ' ' ∉ str := fun hs => hraw ((breakEq_sub hb).2 ' ' hs)
    by_cases hname : name = []
    · rw [if_pos hname] at h; exact absurd h (by simp)
    · rw [if_neg hname] at h
      by_cases hbig : name = "arch".toList ∨ name = "cores".toList ∨
          name = "cpu-power".toList ∨ name = "mem".toList ∨
          name = "root-disk".toList ∨ name = "tags".toList ∨
          name = "availability-zone".toList
      · rw [if_pos hbig] at h
        match hres : (if name = "arch".toList then setArch hc str
            else if name = "cores".toList then setCpuCores hc str
            else if name = "cpu-power".toList then setCpuPower hc str
            else if name = "mem".toList then setMem hc str
            else if name = "root-disk".toList then setRootDisk hc str
            else if name = "tags".toList then setTags hc str
            else if name = "availability-zone".toList then setAvailabilityZone hc str
            else .error SetErr.alreadySet) with
        | .error e => rw [hres] at h; exact absurd h (by simp)
        | .ok x =>
          rw [hres] at h
          simp only [Except.ok.injEq] at h
          subst h
          by_cases e1 : name = "arch".toList
          · rw [if_pos e1] at hres; exact setArch_inv hinv hstr hres
          · rw [if_neg e1] at hres
            by_cases e2 : name = "cores".toList
            · rw [if_pos e2] at hres; exact setCpuCores_inv hinv hres
            · rw [if_neg e2] at hres
              by_cases e3 : name = "cpu-power".toList
              · rw [if_pos e3] at hres; exact setCpuPower_inv hinv hres
              · rw [if_neg e3] at hres
                by_cases e4 : name = "mem".toList
                · rw [if_pos e4] at hres; exact setMem_inv hinv hres
                · rw [if_neg e4] at hres
                  by_cases e5 : name = "root-disk".toList
                  · rw [if_pos e5] at hres; exact setRootDisk_inv hinv hres
                  · rw [if_neg e5] at hres
                    by_cases e6 : name = "tags".toList
                    · rw [if_pos e6] at hres; exact setTags_inv hinv hstr hres
                    · rw [if_neg e6] at hres
                      by_cases e7 : name = "availability-zone".toList
                      · rw [if_pos e7] at hres
                        exact setAvailabilityZone_inv hinv hstr hres
                      · rw [if_neg e7] at hres
                        exact absurd hres (by simp)
      · rw [if_neg hbig] at h
        exact absurd h (by simp)

theorem parseTokens_inv {hc hc' : HardwareCharacteristics}
    {toks : List (List Char)} (hinv : ParseInv hc)
    (htoks : ∀ t ∈ toks, ' ' ∉ t)
    (h : parseTokens hc toks = .ok hc') : ParseInv hc' := by
  induction toks generalizing hc with
  | nil =>
    simp only [parseTokens, Except.ok.injEq] at h
    subst h
    exact hinv
  | cons t ts ih =>
    simp only [parseTokens] at h
    by_cases ht : t = []
    · rw [if_pos ht] at h
      exact ih hinv (fun x hx => htoks x (List.mem_cons_of_mem t hx)) h
    · rw [if_neg ht] at h
      match hsr : setRaw hc t with
      | .error e => rw [hsr] at h; exact absurd h (by simp)
      | .ok hc1 =>
        rw [hsr] at h
        simp only at h
        exact ih (setRaw_inv hinv (htoks t (List.mem_cons_self t ts)) hsr)
          (fun x hx => htoks x (List.mem_cons_of_mem t hx)) h

theorem allTokens_no_space (args : List String) :
    ∀ t ∈ allTokens args, ' ' ∉ t := by
  induction args with
  | nil => simp [allTokens]
  | cons a rest ih =>
    intro t ht
    simp only [allTokens] at ht
    rcases List.mem_append.mp ht with h | h
    · exact mem_splitOnChar_not_sep h
    · exact ih t h

theorem ParseHardware_inv {args : List String} {hc : HardwareCharacteristics}
    (h : ParseHardware args = (hc, none)) : ParseInv hc := by
  unfold ParseHardware at h
  match hp : parseArgs emptyHC args with
  | .error e => rw [hp] at h; simp at h
  | .ok hc0 =>
    rw [hp] at h
    simp only [Prod.mk.injEq] at h
    rw [parseArgs_eq_parseTokens] at hp
    exact h.1 ▸ parseTokens_inv parseInv_empty (allTokens_no_space args) hp

theorem hc_set_arch_none {acc : HardwareCharacteristics} (h : acc.arch = none) :
    { acc with arch := (none : Option (List Char)) } = acc := by
  obtain ⟨a, m, rd, cc, cp, tg, az⟩ := acc
  simp_all

theorem hc_set_mem_none {acc : HardwareCharacteristics} (h : acc.mem = none) :
    { acc with mem := (none : Option Nat) } = acc := by
  obtain ⟨a, m, rd, cc, cp, tg, az⟩ := acc
  simp_all

theorem hc_set_rootDisk_none {acc : HardwareCharacteristics} (h : acc.rootDisk = none) :
    { acc with rootDisk := (none : Option Nat) } = acc := by
  obtain ⟨a, m, rd, cc, cp, tg, az⟩ := acc
  simp_all

theorem hc_set_cpuCores_none {acc : HardwareCharacteristics} (h : acc.cpuCores = none) :
    { acc with cpuCores := (none : Option Nat) } = acc := by
  obtain ⟨a, m, rd, cc, cp, tg, az⟩ := acc
  simp_all

theorem hc_set_cpuPower_none {acc : HardwareCharacteristics} (h : acc.cpuPower = none) :
    { acc with cpuPower := (none : Option Nat) } = acc := by
  obtain ⟨a, m, rd, cc, cp, tg, az⟩ := acc
  simp_all

theorem hc_set_tags_none {acc : HardwareCharacteristics} (h : acc.tags = none) :
    { acc with tags := (none : Option (List (List Char))) } = acc := by
  obtain ⟨a, m, rd, cc, cp, tg, az⟩ := acc
  simp_all

theorem hc_set_az_none {acc : HardwareCharacteristics} (h : acc.availabilityZone = none) :
    { acc with availabilityZone := (none : Option (List Char)) } = acc := by
  obtain ⟨a, m, rd, cc, cp, tg, az⟩ := acc
  simp_all

theorem mem_joinSep {sep : Char} {ps : List (List Char)} {c : Char}
    (h : c ∈ joinSep sep ps) : c = sep ∨ ∃ p ∈ ps, c ∈ p := by
  induction ps with
  | nil => simp [joinSep] at h
  | cons p ps ih =>
    cases ps with
    | nil =>
      simp only [joinSep] at h
      exact Or.inr ⟨p, List.mem_cons_self p [], h⟩
    | cons q qs =>
      have hj : joinSep sep (p :: q :: qs) = p ++ sep :: joinSep sep (q :: qs) := rfl
      rw [hj] at h
      rcases List.mem_append.mp h with h' | h'
      · exact Or.inr ⟨p, List.mem_cons_self p (q :: qs), h'⟩
      · rcases List.mem_cons.mp h' with h'' | h''
        · exact Or.inl h''
        · rcases ih h'' with h3 | ⟨x, hx, hcx⟩
          · exact Or.inl h3
          · exact Or.inr ⟨x, List.mem_cons_of_mem p hx, hcx⟩

theorem hcStrs_no_space {hc : HardwareCharacteristics} (hinv : ParseInv hc) :
    ∀ p ∈ hcStrs hc, ' ' ∉ p := by
  obtain ⟨i1, i2, i3, i4, i5⟩ := hinv
  intro p hp
  unfold hcStrs at hp
  simp only [List.mem_append] at hp
  have digits_no_space : ∀ n : Nat, ' ' ∉ natRepr n := by
    intro n hsp
    have := (natRepr_spec n).2.1 ' ' hsp
    simp [Char.isDigit] at this
  rcases hp with ((((((h | h) | h) | h) | h) | h) | h)
  · match ha : hc.arch with
    | none => rw [ha] at h; simp at h
    | some a =>
      rw [ha] at h
      simp only [List.mem_singleton] at h
      subst h
      intro hsp
      simp only [List.mem_append] at hsp
      rcases hsp with h' | h'
      · exact absurd h' (by decide)
      · exact (i1 a ha).1 h'
  · match ha : hc.cpuCores with
    | none => rw [ha] at h; simp at h
    | some n =>
      rw [ha] at h
      simp only [List.mem_singleton] at h
      subst h
      intro hsp
      simp only [List.mem_append] at hsp
      rcases hsp with h' | h'
      · exact absurd h' (by decide)
      · exact digits_no_space n h'
  · match ha : hc.cpuPower with
    | none => rw [ha] at h; simp at h
    | some n =>
      rw [ha] at h
      simp only [List.mem_singleton] at h
      subst h
      intro hsp
      simp only [List.mem_append] at hsp
      rcases hsp with h' | h'
      · exact absurd h' (by decide)
      · exact digits_no_space n h'
  · match ha : hc.mem with
    | none => rw [ha] at h; simp at h
    | some n =>
      rw [ha] at h
      simp only [List.mem_singleton] at h
      subst h
      intro hsp
      simp only [List.mem_append] at hsp
      rcases hsp with (h' | h') | h'
      · exact absurd h' (by decide)
      · exact digits_no_space n h'
      · exact absurd h' (by decide)
  · match ha : hc.rootDisk with
    | none => rw [ha] at h; simp at h
    | some n =>
      rw [ha] at h
      simp only [List.mem_singleton] at h
      subst h
      intro hsp
      simp only [List.mem_append] at hsp
      rcases hsp with (h' | h') | h'
      · exact absurd h' (by decide)
      · exact digits_no_space n h'
      · exact absurd h' (by decide)
  · match ha : hc.tags with
    | none => rw [ha] at h; simp at h
    | some l =>
      rw [ha] at h
      have h2 : p ∈ (if l ≠ [] then ["tags=".toList ++ joinSep ',' l]
          else ([] : List (List Char))) := h
      by_cases hl : l ≠ []
      · rw [if_pos hl] at h2
        simp only [List.mem_singleton] at h2
        subst h2
        intro hsp
        simp only [List.mem_append] at hsp
        rcases hsp with h' | h'
        · exact absurd h' (by decide)
        · rcases mem_joinSep h' with h'' | ⟨t, ht, hct⟩
          · exact absurd h'' (by decide)
          · exact ((i4 l ha).1 t ht).1 hct
      · rw [if_neg hl] at h2
        simp at h2
  · match ha : hc.availabilityZone with
    | none => rw [ha] at h; simp at h
    | some z =>
      rw [ha] at h
      have h2 : p ∈ (if z ≠ [] then ["availability-zone=".toList ++ z]
          else ([] : List (List Char))) := h
      by_cases hz : z ≠ []
      · rw [if_pos hz] at h2
        simp only [List.mem_singleton] at h2
        subst h2
        intro hsp
        simp only [List.mem_append] at hsp
        rcases hsp with h' | h'
        · exact absurd h' (by decide)
        · exact (i5 z ha).2 h'
      · rw [if_neg hz] at h2
        simp at h2

theorem seg_arch_step (acc hc0 : HardwareCharacteristics) (rest : List (List Char))
    (hacc : acc.arch = none)
    (hinv : ∀ a, hc0.arch = some a → a = [] ∨ a ∈ supportedArches) :
    parseTokens acc ((match hc0.arch with
        | some a => ["arch=".toList ++ a]
        | none => ([] : List (List Char))) ++ rest) =
      parseTokens { acc with arch := hc0.arch } rest := by
  match ha : hc0.arch with
  | none =>
    rw [hc_set_arch_none hacc]
    simp
  | some a =>
    simp only [List.singleton_append, parseTokens]
    rw [if_neg (by simp)]
    have heq : "arch=".toList ++ a = "arch".toList ++ '=' :: a := rfl
    rw [heq, setRaw_arch]
    unfold setArch
    rw [if_neg (by rw [hacc]; simp)]
    rw [if_neg (by
      intro hcon
      rcases hinv a ha with h' | h'
      · exact hcon.1 h'
      · exact hcon.2 h')]
    simp [parseTokens]

theorem seg_cores_step (acc hc0 : HardwareCharacteristics) (rest : List (List Char))
    (hacc : acc.cpuCores = none)
    (hinv : ∀ n, hc0.cpuCores = some n → n < 2 ^ 64) :
    parseTokens acc ((match hc0.cpuCores with
        | some n => ["cores=".toList ++ natRepr n]
        | none => ([] : List (List Char))) ++ rest) =
      parseTokens { acc with cpuCores := hc0.cpuCores } rest := by
  match ha : hc0.cpuCores with
  | none =>
    rw [hc_set_cpuCores_none hacc]
    simp
  | some n =>
    simp only [List.singleton_append, parseTokens]
    rw [if_neg (by simp)]
    have heq : "cores=".toList ++ natRepr n = "cores".toList ++ '=' :: natRepr n := rfl
    rw [heq, setRaw_cores]
    unfold setCpuCores
    rw [if_neg (by rw [hacc]; simp)]
    rw [parseUint64_natRepr (hinv n ha)]
    simp [parseTokens]

theorem seg_cpuPower_step (acc hc0 : HardwareCharacteristics) (rest : List (List Char))
    (hacc : acc.cpuPower = none)
    (hinv : ∀ n, hc0.cpuPower = some n → n < 2 ^ 64) :
    parseTokens acc ((match hc0.cpuPower with
        | some n => ["cpu-power=".toList ++ natRepr n]
        | none => ([] : List (List Char))) ++ rest) =
      parseTokens { acc with cpuPower := hc0.cpuPower } rest := by
  match ha : hc0.cpuPower with
  | none =>
    rw [hc_set_cpuPower_none hacc]
    simp
  | some n =>
    simp only [List.singleton_append, parseTokens]
    rw [if_neg (by simp)]
    have heq : "cpu-power=".toList ++ natRepr n =
      "cpu-power".toList ++ '=' :: natRepr n := rfl
    rw [heq, setRaw_cpuPower]
    unfold setCpuPower
    rw [if_neg (by rw [hacc]; simp)]
    rw [parseUint64_natRepr (hinv n ha)]
    simp [parseTokens]

theorem seg_mem_step (acc hc0 : HardwareCharacteristics) (rest : List (List Char))
    (hacc : acc.mem = none) :
    parseTokens acc ((match hc0.mem with
        | some n => ["mem=".toList ++ (natRepr n ++ ['M'])]
        | none => ([] : List (List Char))) ++ rest) =
      parseTokens { acc with mem := hc0.mem } rest := by
  match ha : hc0.mem with
  | none =>
    rw [hc_set_mem_none hacc]
    simp
  | some n =>
    simp only [List.singleton_append, parseTokens]
    rw [if_neg (by simp)]
    have heq : "mem=".toList ++ (natRepr n ++ ['M']) =
      "mem".toList ++ '=' :: (natRepr n ++ ['M']) := rfl
    rw [heq, setRaw_mem]
    unfold setMem
    rw [if_neg (by rw [hacc]; simp)]
    rw [parseSize_natReprM]
    simp [parseTokens]

theorem seg_rootDisk_step (acc hc0 : HardwareCharacteristics) (rest : List (List Char))
    (hacc : acc.rootDisk = none) :
    parseTokens acc ((match hc0.rootDisk with
        | some n => ["root-disk=".toList ++ (natRepr n ++ ['M'])]
        | none => ([] : List (List Char))) ++ rest) =
      parseTokens { acc with rootDisk := hc0.rootDisk } rest := by
  match ha : hc0.rootDisk with
  | none =>
    rw [hc_set_rootDisk_none hacc]
    simp
  | some n =>
    simp only [List.singleton_append, parseTokens]
    rw [if_neg (by simp)]
    have heq : "root-disk=".toList ++ (natRepr n ++ ['M']) =
      "root-disk".toList ++ '=' :: (natRepr n ++ ['M']) := rfl
    rw [heq, setRaw_rootDisk]
    unfold setRootDisk
    rw [if_neg (by rw [hacc]; simp)]
    rw [parseSize_natReprM]
    simp [parseTokens]

theorem joinSep_comma_ne_nil {l : List (List Char)} (hl : l ≠ []) (hll : l ≠ [[]]) :
    joinSep ',' l ≠ [] := by
  match l, hl with
  | [x], _ =>
    have hx : x ≠ [] := by
      intro h
      exact hll (by rw [h])
    simpa [joinSep] using hx
  | x :: y :: ys, _ =>
    have : joinSep ',' (x :: y :: ys) = x ++ ',' :: joinSep ',' (y :: ys) := rfl
    rw [this]
    simp

theorem seg_tags_step (acc hc0 : HardwareCharacteristics) (rest : List (List Char))
    (hacc : acc.tags = none)
    (hinv : ∀ l, hc0.tags = some l → (∀ t ∈ l, ' ' ∉ t ∧ ',' ∉ t) ∧ l ≠ [[]]) :
    parseTokens acc ((match hc0.tags with
        | some l => if l ≠ [] then ["tags=".toList ++ joinSep ',' l]
            else ([] : List (List Char))
        | none => ([] : List (List Char))) ++ rest) =
      parseTokens { acc with
        tags := if hc0.tags = some [] then none else hc0.tags } rest := by
  match ha : hc0.tags with
  | none =>
    rw [if_neg (by simp)]
    rw [hc_set_tags_none hacc]
    simp
  | some l =>
    have hred : (match some l with
        | some l => if l ≠ [] then ["tags=".toList ++ joinSep ',' l]
            else ([] : List (List Char))
        | none => ([] : List (List Char))) =
        (if l ≠ [] then ["tags=".toList ++ joinSep ',' l]
            else ([] : List (List Char))) := rfl
    rw [hred]
    by_cases hl : l ≠ []
    · rw [if_pos hl, if_neg (show ¬(some l = some []) by simp [hl])]
      simp only [List.singleton_append, parseTokens]
      rw [if_neg (by simp)]
      have heq : "tags=".toList ++ joinSep ',' l =
        "tags".toList ++ '=' :: joinSep ',' l := rfl
      rw [heq, setRaw_tags]
      unfold setTags
      rw [if_neg (by rw [hacc]; simp)]
      unfold parseTags
      rw [if_neg (joinSep_comma_ne_nil hl (hinv l ha).2)]
      rw [splitOnChar_joinSep (fun t ht => ((hinv l ha).1 t ht).2) hl]
      simp [parseTokens]
    · push_neg at hl
      subst hl
      rw [if_neg (show ¬(([] : List (List Char)) ≠ []) by simp),
        if_pos (show some ([] : List (List Char)) = some [] from rfl)]
      rw [hc_set_tags_none hacc]
      simp

theorem seg_az_fin (acc hc0 : HardwareCharacteristics)
    (hacc : acc.availabilityZone = none)
    (hinv : ∀ z, hc0.availabilityZone = some z → z ≠ [] ∧ ' ' ∉ z) :
    parseTokens acc (match hc0.availabilityZone with
        | some z => if z ≠ [] then ["availability-zone=".toList ++ z]
            else ([] : List (List Char))
        | none => ([] : List (List Char))) =
      .ok { acc with availabilityZone := hc0.availabilityZone } := by
  match ha : hc0.availabilityZone with
  | none =>
    rw [hc_set_az_none hacc]
    rfl
  | some z =>
    have hred : (match some z with
        | some z => if z ≠ [] then ["availability-zone=".toList ++ z]
            else ([] : List (List Char))
        | none => ([] : List (List Char))) =
        (if z ≠ [] then ["availability-zone=".toList ++ z]
            else ([] : List (List Char))) := rfl
    rw [hred, if_pos (hinv z ha).1]
    simp only [parseTokens]
    rw [if_neg (by simp)]
    have heq : "availability-zone=".toList ++ z =
      "availability-zone".toList ++ '=' :: z := rfl
    rw [heq, setRaw_az]
    unfold setAvailabilityZone
    rw [if_neg (by rw [hacc]; simp)]
    rw [if_pos (hinv z ha).1]

theorem parseTokens_hcStrs (hc0 : HardwareCharacteristics) (hinv : ParseInv hc0) :
    parseTokens emptyHC (hcStrs hc0) =
      .ok { hc0 with tags := if hc0.tags = some [] then none else hc0.tags } := by
  obtain ⟨i1, i2, i3, i4, i5⟩ := hinv
  unfold hcStrs
  simp only [List.append_assoc]
  rw [seg_arch_step _ _ _ rfl (fun a ha => (i1 a ha).2)]
  rw [seg_cores_step _ _ _ rfl i2]
  rw [seg_cpuPower_step _ _ _ rfl i3]
  rw [seg_mem_step _ _ _ rfl]
  rw [seg_rootDisk_step _ _ _ rfl]
  rw [seg_tags_step _ _ _ rfl i4]
  rw [seg_az_fin _ _ rfl i5]

theorem joinSep_ne_nil_of {sep : Char} {ts : List (List Char)} (hne : ts ≠ [])
    (h : ∀ t ∈ ts, t ≠ []) : joinSep sep ts ≠ [] := by
  match ts, hne with
  | [x], _ => exact h x (List.mem_cons_self x [])
  | x :: y :: ys, _ =>
    have hj : joinSep sep (x :: y :: ys) = x ++ sep :: joinSep sep (y :: ys) := rfl
    rw [hj]
    simp

theorem getLast?_cons_of_ne_nil {c : Char} {xs : List Char} (h : xs ≠ []) :
    (c :: xs).getLast? = xs.getLast? := by
  match xs, h with
  | y :: ys, _ => exact List.getLast?_cons_cons

theorem joinSep_good_ends {ts : List (List Char)} (hne : ts ≠ [])
    (h : ∀ t ∈ ts, GoodToken t) :
    (∀ c, (joinSep ' ' ts).head? = some c → isGoSpace c = false) ∧
    (∀ c, (joinSep ' ' ts).getLast? = some c → isGoSpace c = false) := by
  induction ts with
  | nil => exact absurd rfl hne
  | cons t ts ih =>
    cases ts with
    | nil =>
      have hj : joinSep ' ' [t] = t := rfl
      rw [hj]
      exact ⟨(h t (List.mem_cons_self t [])).2.2.1,
        (h t (List.mem_cons_self t [])).2.2.2⟩
    | cons y ys =>
      have hall : ∀ x ∈ y :: ys, GoodToken x :=
        fun x hx => h x (List.mem_cons_of_mem t hx)
      obtain ⟨ih1, ih2⟩ := ih (by simp) hall
      have hj : joinSep ' ' (t :: y :: ys) = t ++ ' ' :: joinSep ' ' (y :: ys) := rfl
      have htne : t ≠ [] := (h t (List.mem_cons_self t (y :: ys))).1
      have hjne : joinSep ' ' (y :: ys) ≠ [] :=
        joinSep_ne_nil_of (by simp) (fun x hx => (hall x hx).1)
      constructor
      · intro c hc
        rw [hj, List.head?_append] at hc
        have hh : t.head? = some c := by
          match hht : t, htne with
          | d :: ds, _ => exact hc
        exact (h t (List.mem_cons_self t (y :: ys))).2.2.1 c hh
      · intro c hc
        rw [hj, List.getLast?_append] at hc
        rw [getLast?_cons_of_ne_nil hjne] at hc
        have hg2 : (joinSep ' ' (y :: ys)).getLast? = some c := by
          match hg : (joinSep ' ' (y :: ys)).getLast? with
          | none => exact absurd hg (by simpa using hjne)
          | some d =>
            rw [hg] at hc
            exact hc
        exact ih2 c hg2

theorem trim_join_goodTokens {ts : List (List Char)} (hne : ts ≠ [])
    (h : ∀ t ∈ ts, GoodToken t) :
    goTrimList (joinSep ' ' ts) = joinSep ' ' ts :=
  goTrimList_of_ends (joinSep_good_ends hne h).1 (joinSep_good_ends hne h).2

theorem ceilDiv_eq_ceil (a : Int) (b : Nat) :
    (ceilDiv a b : Int) = ⌈((a : ℚ) / (b : ℚ))⌉ := by
  unfold ceilDiv
  have h1 : ⌈((a : ℚ) / (b : ℚ))⌉ = -⌊-((a : ℚ) / (b : ℚ))⌋ := by
    conv_lhs => rw [← neg_neg ((a : ℚ) / (b : ℚ))]
    rw [Int.ceil_neg]
  rw [h1]
  congr 1
  have h2 : -((a : ℚ) / (b : ℚ)) = ((-a : Int) : ℚ) / ((b : Nat) : ℚ) := by
    push_cast
    ring
  rw [h2, Rat.floor_intCast_div_natCast]

theorem sizeCore_eq (pre : List Char) (m : Nat) :
    (match goParseFloatList pre with
     | some nd => if nd.1 < 0 then Except.error SetErr.invalidSize
         else Except.ok (Int.toNat (ceilDiv (nd.1 * m) (10 ^ nd.2)))
     | none => Except.error SetErr.invalidSize) =
    (match goParseFloatList pre with
     | some nd => if ndVal nd < 0 then Except.error SetErr.invalidSize
         else Except.ok (Int.toNat ⌈ndVal nd * (m : ℚ)⌉)
     | none => Except.error SetErr.invalidSize) := by
  match hf : goParseFloatList pre with
  | none => rfl
  | some nd =>
    dsimp only
    have hden : 0 < (10 : Nat) ^ nd.2 := Nat.pos_pow_of_pos _ (by norm_num)
    have hdenq : (0 : ℚ) < (10 : ℚ) ^ nd.2 := by positivity
    have hneg : nd.1 < 0 ↔ ndVal nd < 0 := by
      unfold ndVal
      rw [div_neg_iff]
      constructor
      · intro hn
        exact Or.inr ⟨by exact_mod_cast hn, hdenq⟩
      · intro hn
        rcases hn with ⟨_, hb2⟩ | ⟨ha2, _⟩
        · exact absurd hb2 (not_lt.mpr (le_of_lt hdenq))
        · exact_mod_cast ha2
    by_cases hn : nd.1 < 0
    · rw [if_pos hn, if_pos (hneg.mp hn)]
    · rw [if_neg hn, if_neg (fun hcon => hn (hneg.mpr hcon))]
      congr 2
      rw [ceilDiv_eq_ceil]
      congr 1
      unfold ndVal
      push_cast
      ring

theorem parseSize_eq_specSize {str : List Char} (h : str ≠ []) :
    parseSize str = specSize str := by
  unfold parseSize specSize
  rw [if_neg h]
  match hl : str.getLast? with
  | none => exact absurd (List.getLast?_eq_none_iff.mp hl) h
  | some c =>
    dsimp only
    by_cases hM : c = 'M'
    · subst hM
      have hsuf : mbSuffix 'M' = some 1 := rfl
      rw [hsuf, if_pos rfl]
      dsimp only
      have := sizeCore_eq str.dropLast 1
      simp only [Nat.cast_one] at this
      exact this
    · by_cases hG : c = 'G'
      · subst hG
        have hsuf : mbSuffix 'G' = some 1024 := rfl
        rw [hsuf, if_neg (by simp [hM]), if_pos rfl]
        dsimp only
        have := sizeCore_eq str.dropLast 1024
        norm_num at this
        exact this
      · by_cases hT : c = 'T'
        · subst hT
          have hsuf : mbSuffix 'T' = some (1024 * 1024) := rfl
          rw [hsuf, if_neg (by simp [hM]), if_neg (by simp [hG]), if_pos rfl]
          dsimp only
          have := sizeCore_eq str.dropLast (1024 * 1024)
          norm_num at this ⊢
          exact this
        · by_cases hP : c = 'P'
          · subst hP
            have hsuf : mbSuffix 'P' = some (1024 * 1024 * 1024) := rfl
            rw [hsuf, if_neg (by simp [hM]), if_neg (by simp [hG]),
              if_neg (by simp [hT]), if_pos rfl]
            dsimp only
            have := sizeCore_eq str.dropLast (1024 * 1024 * 1024)
            norm_num at this ⊢
            exact this
          · have hsuf : mbSuffix c = none := by simp [mbSuffix, hM, hG, hT, hP]
            rw [hsuf, if_neg (by simp [hM]), if_neg (by simp [hG]),
              if_neg (by simp [hT]), if_neg (by simp [hP])]
            dsimp only
            have := sizeCore_eq str 1
            simp only [Nat.cast_one] at this
            exact this

theorem goodToken_mk {t : List Char} (h1 : t ≠ []) (h2 : ' ' ∉ t)
    (h3 : ∀ c ∈ t.head?.toList, isGoSpace c = false)
    (h4 : ∀ c ∈ t.getLast?.toList, isGoSpace c = false) : GoodToken t := by
  refine ⟨h1, h2, ?_, ?_⟩
  · intro c hc
    exact h3 c (by rw [hc]; simp)
  · intro c hc
    exact h4 c (by rw [hc]; simp)

theorem tokenize_good {t : String} (h : GoodToken t.toList) :
    tokenize t = [t.toList] := by
  unfold tokenize
  rw [goodToken_trim h, splitOnChar_of_not_mem h.2.1]

theorem allTokens_append (xs ys : List String) :
    allTokens (xs ++ ys) = allTokens xs ++ allTokens ys := by
  induction xs with
  | nil => rfl
  | cons a rest ih => simp [allTokens, ih]

theorem allTokens_good {toks : List String}
    (h : ∀ t ∈ toks, GoodToken t.toList) :
    allTokens toks = toks.map String.toList := by
  induction toks with
  | nil => rfl
  | cons t ts ih =>
    simp only [allTokens, List.map_cons]
    rw [tokenize_good (h t (List.mem_cons_self t ts))]
    rw [ih (fun x hx => h x (List.mem_cons_of_mem t hx))]
    rfl

theorem ParseHardware_single {t : List Char} (h : GoodToken t) :
    ParseHardware [t.asString] =
      (match setRaw emptyHC t with
       | .ok hc => (hc, none)
       | .error e => (emptyHC, some e)) := by
  unfold ParseHardware parseArgs
  have htok : tokenize t.asString = [t] := tokenize_single h
  rw [htok]
  simp only [parseTokens, if_neg h.1]
  cases hsr : setRaw emptyHC t with
  | error e => simp [parseArgs]
  | ok hc' => simp [parseTokens, parseArgs]

/-- Whether the field selected by key `k` is already assigned in `hc`
(false for unrecognized keys). -/
def assignedKey (hc : HardwareCharacteristics) (k : List Char) : Bool :=
  if k = "arch".toList then hc.arch.isSome
  else if k = "cores".toList then hc.cpuCores.isSome
  else if k = "cpu-power".toList then hc.cpuPower.isSome
  else if k = "mem".toList then hc.mem.isSome
  else if k = "root-disk".toList then hc.rootDisk.isSome
  else if k = "tags".toList then hc.tags.isSome
  else if k = "availability-zone".toList then hc.availabilityZone.isSome
  else false

theorem setRaw_alreadySet {hc : HardwareCharacteristics} {k : List Char}
    (h : assignedKey hc k = true) (v : List Char) :
    setRaw hc (k ++ '=' :: v) = .error (.bad k .alreadySet) := by
  unfold assignedKey at h
  by_cases e1 : k = "arch".toList
  · subst e1
    rw [if_pos rfl] at h
    rw [setRaw_arch]
    unfold setArch
    rw [if_pos h]
  · rw [if_neg e1] at h
    by_cases e2 : k = "cores".toList
    · subst e2
      rw [if_pos rfl] at h
      rw [setRaw_cores]
      unfold setCpuCores
      rw [if_pos h]
    · rw [if_neg e2] at h
      by_cases e3 : k = "cpu-power".toList
      · subst e3
        rw [if_pos rfl] at h
        rw [setRaw_cpuPower]
        unfold setCpuPower
        rw [if_pos h]
      · rw [if_neg e3] at h
        by_cases e4 : k = "mem".toList
        · subst e4
          rw [if_pos rfl] at h
          rw [setRaw_mem]
          unfold setMem
          rw [if_pos h]
        · rw [if_neg e4] at h
          by_cases e5 : k = "root-disk".toList
          · subst e5
            rw [if_pos rfl] at h
            rw [setRaw_rootDisk]
            unfold setRootDisk
            rw [if_pos h]
          · rw [if_neg e5] at h
            by_cases e6 : k = "tags".toList
            · subst e6
              rw [if_pos rfl] at h
              rw [setRaw_tags]
              unfold setTags
              rw [if_pos h]
            · rw [if_neg e6] at h
              by_cases e7 : k = "availability-zone".toList
              · subst e7
                rw [if_pos rfl] at h
                rw [setRaw_az]
                unfold setAvailabilityZone
                rw [if_pos h]
              · rw [if_neg e7] at h
                exact absurd h (by simp)

theorem ParseHardware_snoc_fail {args : List String} {t : List Char}
    (hgood : GoodToken t) {hc' : HardwareCharacteristics}
    (hok : parseArgs emptyHC args = .ok hc') {e : ParseErr}
    (hfail : setRaw hc' t = .error e) :
    ParseHardware (args ++ [t.asString]) = (emptyHC, some e) := by
  unfold ParseHardware
  rw [parseArgs_eq_parseTokens, allTokens_append, parseTokens_append]
  rw [parseArgs_eq_parseTokens] at hok
  rw [hok]
  have : allTokens [t.asString] = [t] := by
    simp [allTokens, tokenize_single hgood]
  rw [this]
  simp only [parseTokens, if_neg hgood.1, hfail]

theorem option_part_eq {α β : Type} (o : Option α) (f : α → List β) :
    (match o with | some a => [f a] | none => ([] : List (List β))) =
      o.toList.map f := by
  cases o <;> rfl

theorem option_part_filter_eq {α β : Type} [DecidableEq α] (o : Option (List α))
    (f : List α → List β) :
    (match o with
     | some l => if l ≠ [] then [f l] else ([] : List (List β))
     | none => ([] : List (List β))) =
      (o.toList.filter (fun l => !l.isEmpty)).map f := by
  cases o with
  | none => rfl
  | some l =>
    cases l with
    | nil => rfl
    | cons c cs => simp

/-- C1 (counterexample to the claim as stated): the claim requires every
value string of `mem` to go through the float pipeline, under which the
empty prefix is not a valid float and must fail with `InvalidNumber`; the
code instead accepts `mem=` and stores 0. -/
theorem C1_counterexample :
    ParseHardware ["mem="] = ({ emptyHC with mem := some 0 }, none) ∧
      specSize "".toList = .error .invalidSize := by
  exact ⟨by decide, by decide⟩

/-- C1 (amended: for every non-empty value string on the `sizeFaithful`
domain — prefix in `ParseFloat`'s plain decimal grammar, exact value a
binary64 float so `float64` evaluation is exact, product ceiling below
`2 ^ 64` so the `uint64` conversion is defined): `parseSize` — the
conversion applied to `mem` and `root-disk` values — agrees with the
spec-worded `specSize` (strip one trailing `M`/`G`/`T`/`P`, parse the
rest as a non-negative float, store the ceiling of value times the
binary multiplier, failing with `InvalidNumber` on a negative number);
and the dictated examples hold: `mem=1G ↦ 1024`, `mem=1.5G ↦ 1536`,
`root-disk=2T ↦ 2097152`, and `mem=-5` / `mem=abc` fail with
`InvalidNumber`.  Outside the domain `ParseFloat`'s binary64 behaviour
(rounding, overflow range errors, `inf`/`nan` forms) and Go's
implementation-defined float-to-`uint64` conversion take over and are
not asserted. -/
theorem C1_theorem :
    (∀ str : List Char, str ≠ [] → sizeFaithful str = true →
      parseSize str = specSize str)
    ∧ ParseHardware ["mem=1G"] = ({ emptyHC with mem := some 1024 }, none)
    ∧ ParseHardware ["mem=1.5G"] = ({ emptyHC with mem := some 1536 }, none)
    ∧ ParseHardware ["root-disk=2T"] =
        ({ emptyHC with rootDisk := some 2097152 }, none)
    ∧ ParseHardware ["mem=-5"] = (emptyHC, some (.bad "mem".toList .invalidSize))
    ∧ ParseHardware ["mem=abc"] =
        (emptyHC, some (.bad "mem".toList .invalidSize)) :=
  ⟨fun _ h _ => parseSize_eq_specSize h, by decide, by decide, by decide,
    by decide, by decide⟩

/-- C1 witness: the conversion agreement applied at the concrete value
string `1.5G`, which lies in the faithful domain (`1.5 = 3 * 2 ^ (-1)` is
a binary64 float and `1536 < 2 ^ 64`). -/
theorem C1_witness :
    "1.5G".toList ≠ [] ∧ sizeFaithful "1.5G".toList = true ∧
      parseSize "1.5G".toList = specSize "1.5G".toList :=
  ⟨by decide, by decide, C1_theorem.1 "1.5G".toList (by decide) (by decide)⟩

/-- C6 (counterexample to the claim as stated): `cores` with the
non-negative base-10 integer `18446744073709551616` (which is `2 ^ 64`, a
digit string with no suffix) fails with `InvalidNumber` because
`strconv.ParseUint(_, 10, 64)` range-checks against `2 ^ 64`, while the
claim requires success for every non-negative base-10 integer. -/
theorem C6_counterexample :
    "18446744073709551616".toList.all Char.isDigit = true ∧
      ParseHardware ["cores=18446744073709551616"] =
        (emptyHC, some (.bad "cores".toList .invalidUint)) := by
  exact ⟨by decide, by decide⟩

/-- C6 (amended: with the value below `2 ^ 64`): for every well-formed
token value `v`, parse of `cores=v` (and `cpu-power=v`) succeeds exactly
when `v` is empty (giving zero) or a string of base-10 digits whose value
is below `2 ^ 64` (giving that value); any other value fails with
`InvalidNumber`. -/
theorem C6_theorem :
    (∀ v : List Char, GoodToken ("cores".toList ++ '=' :: v) →
      ParseHardware [("cores".toList ++ '=' :: v).asString] =
        (if v = [] then ({ emptyHC with cpuCores := some 0 }, none)
         else if v.all Char.isDigit ∧ digitsVal v < 2 ^ 64 then
           ({ emptyHC with cpuCores := some (digitsVal v) }, none)
         else (emptyHC, some (.bad "cores".toList .invalidUint))))
    ∧ (∀ v : List Char, GoodToken ("cpu-power".toList ++ '=' :: v) →
      ParseHardware [("cpu-power".toList ++ '=' :: v).asString] =
        (if v = [] then ({ emptyHC with cpuPower := some 0 }, none)
         else if v.all Char.isDigit ∧ digitsVal v < 2 ^ 64 then
           ({ emptyHC with cpuPower := some (digitsVal v) }, none)
         else (emptyHC, some (.bad "cpu-power".toList .invalidUint)))) := by
  constructor
  · intro v hg
    by_cases h0 : v = []
    · subst h0
      decide
    · rw [ParseHardware_single hg, setRaw_cores, if_neg h0]
      unfold setCpuCores parseUint64
      rw [if_neg (by decide)]
      by_cases hd : v.all Char.isDigit ∧ digitsVal v < 2 ^ 64
      · rw [if_pos hd, if_neg h0, if_pos hd]
      · rw [if_neg hd, if_neg h0, if_neg hd]
  · intro v hg
    by_cases h0 : v = []
    · subst h0
      decide
    · rw [ParseHardware_single hg, setRaw_cpuPower, if_neg h0]
      unfold setCpuPower parseUint64
      rw [if_neg (by decide)]
      by_cases hd : v.all Char.isDigit ∧ digitsVal v < 2 ^ 64
      · rw [if_pos hd, if_neg h0, if_pos hd]
      · rw [if_neg hd, if_neg h0, if_neg hd]

/-- C6 witness: the characterization applied at `cores=42` and
`cpu-power=abc`. -/
theorem C6_witness :
    ParseHardware [("cores".toList ++ '=' :: "42".toList).asString] =
      (if "42".toList = [] then ({ emptyHC with cpuCores := some 0 }, none)
       else if "42".toList.all Char.isDigit ∧ digitsVal "42".toList < 2 ^ 64 then
         ({ emptyHC with cpuCores := some (digitsVal "42".toList) }, none)
       else (emptyHC, some (.bad "cores".toList .invalidUint)))
    ∧ ParseHardware [("cpu-power".toList ++ '=' :: "abc".toList).asString] =
      (if "abc".toList = [] then ({ emptyHC with cpuPower := some 0 }, none)
       else if "abc".toList.all Char.isDigit ∧ digitsVal "abc".toList < 2 ^ 64 then
         ({ emptyHC with cpuPower := some (digitsVal "abc".toList) }, none)
       else (emptyHC, some (.bad "cpu-power".toList .invalidUint))) :=
  ⟨C6_theorem.1 "42".toList
      (goodToken_mk (by decide) (by decide) (by decide) (by decide)),
    C6_theorem.2 "abc".toList
      (goodToken_mk (by decide) (by decide) (by decide) (by decide))⟩

/-- C7: every token splits at the first `=`: a well-formed token with no
`=` or with `=` first (empty key) fails with `MalformedToken`; a token
whose key is not one of the seven recognized keys fails with
`UnknownCharacteristic`; `bogus=1` is such a failure, and `tags=a=b`
shows the split happens at the first `=` only. -/
theorem C7_theorem :
    (∀ raw : List Char, GoodToken raw → '=' ∉ raw →
      ParseHardware [raw.asString] = (emptyHC, some (.malformed raw)))
    ∧ (∀ rest : List Char, GoodToken ('=' :: rest) →
      ParseHardware [('=' :: rest).asString] =
        (emptyHC, some (.malformed ('=' :: rest))))
    ∧ (∀ k v : List Char, GoodToken (k ++ '=' :: v) → '=' ∉ k → k ≠ [] →
      k ∉ recognizedKeys →
      ParseHardware [(k ++ '=' :: v).asString] = (emptyHC, some (.unknown k)))
    ∧ ParseHardware ["bogus=1"] = (emptyHC, some (.unknown "bogus".toList))
    ∧ ParseHardware ["tags=a=b"] =
        ({ emptyHC with tags := some [['a', '=', 'b']] }, none) := by
  refine ⟨?_, ?_, ?_, by decide, by decide⟩
  · intro raw hg hne
    rw [ParseHardware_single hg, setRaw_no_eq emptyHC hne]
  · intro rest hg
    rw [ParseHardware_single hg, setRaw_empty_key]
  · intro k v hg hk hkne hkeys
    rw [ParseHardware_single hg, setRaw_unknown emptyHC hk hkne hkeys]

/-- C7 witness: the malformed and unknown-key cases applied at the
concrete tokens `abc`, `=x` and `size=1`. -/
theorem C7_witness :
    ParseHardware ["abc".toList.asString] =
      (emptyHC, some (.malformed "abc".toList))
    ∧ ParseHardware [('=' :: "x".toList).asString] =
        (emptyHC, some (.malformed ('=' :: "x".toList)))
    ∧ ParseHardware [("size".toList ++ '=' :: "1".toList).asString] =
        (emptyHC, some (.unknown "size".toList)) :=
  ⟨C7_theorem.1 "abc".toList
      (goodToken_mk (by decide) (by decide) (by decide) (by decide)) (by decide),
    C7_theorem.2.1 "x".toList
      (goodToken_mk (by decide) (by decide) (by decide) (by decide)),
    C7_theorem.2.2.1 "size".toList "1".toList
      (goodToken_mk (by decide) (by decide) (by decide) (by decide))
      (by decide) (by decide) (by decide)⟩

/-- C9: a `mem` or `root-disk` token with an empty value succeeds and
sets the field to 0 (the field becomes set, not unspecified), an
extension of the empty-means-zero behaviour beyond the plain-integer
fields. -/
theorem C9_theorem :
    ParseHardware ["mem="] = ({ emptyHC with mem := some 0 }, none)
    ∧ ParseHardware ["root-disk="] =
        ({ emptyHC with rootDisk := some 0 }, none)
    ∧ ({ emptyHC with mem := some 0 } : HardwareCharacteristics).mem ≠ none := by
  exact ⟨by decide, by decide, by decide⟩

/-- C10: an availability-zone token with an empty value does not mark the
field assigned: `availability-zone=` followed by `availability-zone=az1`
succeeds with the later value, the empty-value setter is a no-op on an
unassigned record, while any second availability-zone token after the
field is assigned fails with `AlreadySet`. -/
theorem C10_theorem :
    ParseHardware ["availability-zone=", "availability-zone=az1"] =
      ({ emptyHC with availabilityZone := some "az1".toList }, none)
    ∧ (∀ hc : HardwareCharacteristics, hc.availabilityZone = none →
        setAvailabilityZone hc [] = .ok hc)
    ∧ (∀ (hc : HardwareCharacteristics) (z v : List Char),
        hc.availabilityZone = some z →
        setAvailabilityZone hc v = .error .alreadySet)
    ∧ ParseHardware ["availability-zone=a availability-zone="] =
        (emptyHC, some (.bad "availability-zone".toList .alreadySet)) := by
  refine ⟨by decide, ?_, ?_, by decide⟩
  · intro hc h
    unfold setAvailabilityZone
    rw [if_neg (by rw [h]; simp), if_neg (by simp)]
  · intro hc z v h
    unfold setAvailabilityZone
    rw [if_pos (by rw [h]; simp)]

/-- C10 witness: the setter facts applied at concrete records. -/
theorem C10_witness :
    setAvailabilityZone emptyHC [] = .ok emptyHC
    ∧ setAvailabilityZone
        { emptyHC with availabilityZone := some "a".toList } "b".toList =
        .error .alreadySet :=
  ⟨C10_theorem.2.1 emptyHC rfl,
    C10_theorem.2.2.1 { emptyHC with availabilityZone := some "a".toList }
      "a".toList "b".toList rfl⟩

/-- C3 (counterexample to the claim as stated): the recognized key
`availability-zone` appears in two tokens, yet parse succeeds, because an
empty-valued availability-zone token does not assign the field. -/
theorem C3_counterexample :
    ParseHardware ["availability-zone= availability-zone="] = (emptyHC, none) := by
  decide

/-- C3 (amended: the duplicate must be of an ASSIGNED key, reached
without an earlier failure): whenever a parse call has processed some
argument strings successfully and the key of a further well-formed token
is already assigned in the accumulated record, the call fails with
`AlreadySet` — a second assignment is a validation error, never an
overwrite; in particular `mem=1G mem=2G` fails with `AlreadySet`.
(An availability-zone token with an empty value assigns nothing, so such
duplicates do not trigger the error.) -/
theorem C3_theorem :
    (∀ (args : List String) (k v : List Char) (hc' : HardwareCharacteristics),
      GoodToken (k ++ '=' :: v) →
      parseArgs emptyHC args = .ok hc' →
      assignedKey hc' k = true →
      ParseHardware (args ++ [(k ++ '=' :: v).asString]) =
        (emptyHC, some (.bad k .alreadySet)))
    ∧ ParseHardware ["mem=1G mem=2G"] =
        (emptyHC, some (.bad "mem".toList .alreadySet)) := by
  refine ⟨?_, by decide⟩
  intro args k v hc' hg hok hset
  exact ParseHardware_snoc_fail hg hok (setRaw_alreadySet hset v)

/-- C3 witness: the duplicate-assignment failure applied after the
concrete argument `mem=1G` with the second token `mem=2G`. -/
theorem C3_witness :
    ParseHardware (["mem=1G"] ++ [("mem".toList ++ '=' :: "2G".toList).asString]) =
      (emptyHC, some (.bad "mem".toList .alreadySet)) :=
  C3_theorem.1 ["mem=1G"] "mem".toList "2G".toList
    { emptyHC with mem := some 1024 }
    (goodToken_mk (by decide) (by decide) (by decide) (by decide))
    (by decide) (by decide)

/-- C8: a failing parse call returns the zero record (no partial
record), and whenever the tokens before `t` all succeed and `t` fails,
the whole call returns exactly `t`'s error, regardless of the tokens
after `t` (processing stops at the first failure). -/
theorem C8_theorem :
    (∀ (args : List String) (hc : HardwareCharacteristics) (e : ParseErr),
      ParseHardware args = (hc, some e) → hc = emptyHC)
    ∧ (∀ (args : List String) (pre : List (List Char)) (t : List Char)
        (post : List (List Char)) (hc : HardwareCharacteristics) (e : ParseErr),
      allTokens args = pre ++ t :: post →
      parseTokens emptyHC pre = .ok hc →
      t ≠ [] →
      setRaw hc t = .error e →
      ParseHardware args = (emptyHC, some e)) := by
  constructor
  · intro args hc e h
    unfold ParseHardware at h
    cases hp : parseArgs emptyHC args with
    | ok hc0 => rw [hp] at h; simp at h
    | error e0 =>
      rw [hp] at h
      simp only [Prod.mk.injEq] at h
      exact h.1.symm
  · intro args pre t post hc e happ hpre ht hfail
    unfold ParseHardware
    rw [parseArgs_eq_parseTokens, happ, parseTokens_append, hpre]
    simp only [parseTokens, if_neg ht, hfail]

/-- C8 witness: both parts applied at the concrete call
`mem=1G mem=abc cores=1`, whose second token fails with `AlreadySet`
before the (valid) third token is reached. -/
theorem C8_witness :
    emptyHC = emptyHC
    ∧ ParseHardware ["mem=1G mem=abc cores=1"] =
        (emptyHC, some (.bad "mem".toList .alreadySet)) :=
  ⟨C8_theorem.1 ["mem=1G mem=abc cores=1"] emptyHC
      (.bad "mem".toList .alreadySet) (by decide),
    C8_theorem.2 ["mem=1G mem=abc cores=1"] ["mem=1G".toList] "mem=abc".toList
      ["cores=1".toList] { emptyHC with mem := some 1024 }
      (.bad "mem".toList .alreadySet) (by decide) (by decide) (by decide)
      (by decide)⟩

/-- C4 (counterexample to the claim as stated): the two call forms are
not identical for every token sequence.  For the tokens `tags=a<TAB>`
and `cores=1`, parse of the single space-joined string keeps the tab
(mid-string splitting is on `' '` only), while the separate-argument
form `TrimSpace`s each argument and so strips the trailing tab: the tags
field comes back as `[a\t]` in the one form and `[a]` in the other. -/
theorem C4_counterexample :
    ParseHardware
        [(joinSep ' ' ((["tags=a\t", "cores=1"] : List String).map String.toList)).asString] =
      ({ emptyHC with cpuCores := some 1, tags := some [['a', '\t']] }, none)
    ∧ ParseHardware ["tags=a\t", "cores=1"] =
      ({ emptyHC with cpuCores := some 1, tags := some [['a']] }, none)
    ∧ (({ emptyHC with cpuCores := some 1, tags := some [['a', '\t']] },
        (none : Option ParseErr)) ≠
       ({ emptyHC with cpuCores := some 1, tags := some [['a']] }, none)) := by
  exact ⟨by decide, by decide, by decide⟩

/-- C4 (amended: for tokens that contain no space and neither start nor
end with `TrimSpace` whitespace — a token ending in such whitespace is
trimmed in the separate-argument form but survives mid-string, see the
counterexample): parse applied to one string holding the space-joined
tokens returns the same result — record or error — as parse applied to
the same tokens as separate argument strings; state accumulates across
all argument strings of one call. -/
theorem C4_theorem (toks : List String)
    (h : ∀ t ∈ toks, GoodToken t.toList) :
    ParseHardware [(joinSep ' ' (toks.map String.toList)).asString] =
      ParseHardware toks := by
  cases toks with
  | nil => decide
  | cons t ts =>
    have hmapne : (t :: ts).map String.toList ≠ [] := by simp
    have hmapgood : ∀ x ∈ (t :: ts).map String.toList, GoodToken x := by
      intro x hx
      rcases List.mem_map.mp hx with ⟨s, hs, rfl⟩
      exact h s hs
    have htok : tokenize ((joinSep ' ' ((t :: ts).map String.toList)).asString) =
        (t :: ts).map String.toList := by
      unfold tokenize
      rw [asString_toList, trim_join_goodTokens hmapne hmapgood,
        splitOnChar_joinSep (fun p hp => (hmapgood p hp).2.1) hmapne]
    unfold ParseHardware
    rw [parseArgs_eq_parseTokens (t :: ts), allTokens_good h]
    simp only [parseArgs, htok]
    cases hp : parseTokens emptyHC ((t :: ts).map String.toList) with
    | ok hc' => simp [parseArgs]
    | error e => simp

/-- C4 witness: the tokenization equivalence applied to the concrete
tokens `mem=1G` and `cores=2`. -/
theorem C4_witness :
    ParseHardware
        [(joinSep ' ' ((["mem=1G", "cores=2"] : List String).map String.toList)).asString] =
      ParseHardware ["mem=1G", "cores=2"] :=
  C4_theorem ["mem=1G", "cores=2"] (by
    intro t ht
    simp only [List.mem_cons, List.not_mem_nil, or_false] at ht
    rcases ht with rfl | rfl
    · exact goodToken_mk (by decide) (by decide) (by decide) (by decide)
    · exact goodToken_mk (by decide) (by decide) (by decide) (by decide))

/-- C5: format never fails (it is a total function) and produces the
space-join of exactly one `key=value` token per set field in the fixed
order arch, cores, cpu-power, mem, root-disk, tags, availability-zone,
with mem and root-disk rendered as decimal integers with an `M` suffix,
cores and cpu-power as plain decimal integers (second conjunct: the
rendering really is the decimal numeral), tags only when the sequence is
non-empty and availability-zone only when non-empty. -/
theorem C5_theorem :
    (∀ hc : HardwareCharacteristics,
      hcString hc = (joinSep ' '
        ((hc.arch.toList.map fun a => "arch=".toList ++ a) ++
         (hc.cpuCores.toList.map fun n => "cores=".toList ++ natRepr n) ++
         (hc.cpuPower.toList.map fun n => "cpu-power=".toList ++ natRepr n) ++
         (hc.mem.toList.map fun n => "mem=".toList ++ natRepr n ++ ['M']) ++
         (hc.rootDisk.toList.map fun n =>
           "root-disk=".toList ++ natRepr n ++ ['M']) ++
         ((hc.tags.toList.filter fun l => !l.isEmpty).map fun l =>
           "tags=".toList ++ joinSep ',' l) ++
         ((hc.availabilityZone.toList.filter fun z => !z.isEmpty).map fun z =>
           "availability-zone=".toList ++ z))).asString)
    ∧ (∀ n : Nat, (∀ c ∈ natRepr n, c.isDigit = true) ∧
        digitsVal (natRepr n) = n) := by
  constructor
  · intro hc
    obtain ⟨a, m, rd, cc, cp, tg, az⟩ := hc
    unfold hcString hcStringL hcStrs
    rcases tg with _ | (_ | ⟨t0, ts0⟩) <;> rcases az with _ | (_ | ⟨z0, zs0⟩) <;>
      cases a <;> cases cc <;> cases cp <;> cases m <;> cases rd <;> rfl
  · intro n
    exact ⟨(natRepr_spec n).2.1, (natRepr_spec n).2.2⟩

/-- C2 (counterexample to the claim as stated): the parse-producible
record with cores 1 and the single tag `a<TAB>` (obtained from the one
argument `tags=a\t cores=1`) formats to `cores=1 tags=a\t`, whose
trailing tab is removed by `TrimSpace` on reparse, so the tags field
comes back as `[a]` — a non-empty field is not reproduced with an
identical value, and the record is not in the explicitly-empty-tags
exception. -/
theorem C2_counterexample :
    ParseHardware ["tags=a\t cores=1"] =
      ({ emptyHC with cpuCores := some 1, tags := some [['a', '\t']] }, none)
    ∧ ParseHardware
        [hcString { emptyHC with cpuCores := some 1, tags := some [['a', '\t']] }] =
      ({ emptyHC with cpuCores := some 1, tags := some [['a']] }, none)
    ∧ ([['a', '\t']] : List (List Char)) ≠ [['a']] := by
  exact ⟨by decide, by decide, by decide⟩

/-- C2 (amended: additionally requiring that the formatted string is
`TrimSpace`-stable, i.e. does not end in a whitespace character — only
possible when the last tag or the availability zone ends in whitespace):
for every record produced by a successful parse, parsing the formatted
string succeeds and reproduces every field with an identical value,
except that an explicitly-empty tags sequence comes back unspecified. -/
theorem C2_theorem (args : List String) (hc : HardwareCharacteristics)
    (h : ParseHardware args = (hc, none))
    (hws : goTrimList (hcStringL hc) = hcStringL hc) :
    ParseHardware [hcString hc] =
      ({ hc with tags := if hc.tags = some [] then none else hc.tags }, none) := by
  have hinv := ParseHardware_inv h
  have htok : tokenize (hcString hc) = splitOnChar ' ' (hcStringL hc) := by
    unfold tokenize hcString
    rw [asString_toList, hws]
  by_cases hnil : hcStrs hc = []
  · have hstrL : hcStringL hc = [] := by
      unfold hcStringL
      rw [hnil]
      rfl
    have htok2 : tokenize (hcString hc) = [[]] := by
      rw [htok, hstrL]
      rfl
    have hpt := parseTokens_hcStrs hc hinv
    rw [hnil] at hpt
    have hadj : (Except.ok emptyHC : Except ParseErr HardwareCharacteristics) =
        .ok { hc with tags := if hc.tags = some [] then none else hc.tags } := hpt
    simp only [Except.ok.injEq] at hadj
    unfold ParseHardware parseArgs
    rw [htok2]
    simp only [parseTokens, if_pos rfl, ← hadj]
    rfl
  · have hsplit : splitOnChar ' ' (hcStringL hc) = hcStrs hc := by
      unfold hcStringL
      exact splitOnChar_joinSep (hcStrs_no_space hinv) hnil
    unfold ParseHardware parseArgs
    rw [htok, hsplit, parseTokens_hcStrs hc hinv]
    rfl

/-- The concrete parse-produced record used by the round-trip witness. -/
def rtWitnessHC : HardwareCharacteristics :=
  { emptyHC with
    cpuCores := some 4
    mem := some 2048
    tags := some ["foo".toList, "bar".toList]
    availabilityZone := some "az1".toList }

/-- C2 witness: the round trip applied to the record produced by the
concrete parse of `cores=4 mem=2G tags=foo,bar availability-zone=az1`
(whose tags are non-empty, so the record round-trips unchanged). -/
theorem C2_witness :
    ParseHardware [hcString rtWitnessHC] = (rtWitnessHC, none) :=
  C2_theorem ["cores=4 mem=2G tags=foo,bar availability-zone=az1"]
    rtWitnessHC (by decide) (by decide)
